import Mathlib

/-!
Verification development for the Magellan dependency-analysis engine
(`magellan/package_utils.py`): a shallow embedding of the graph-distance
calculator, the version-staleness classifier, the requirements/environment
reconciler and the `Package` accessor cache, together with theorems about
their behaviour.

Python dictionaries are modelled as association lists with first-match
lookup and replace-or-append insertion (Python dicts have unique keys and
insertion order; building a dict from a sequence of pairs lets later pairs
overwrite earlier ones).  Python exceptions are modelled with `Except`.
-/

deriving instance DecidableEq for Except

namespace Magellan

/-- Python `s.lower()` (ASCII lowering, matching `str.lower` on the ASCII
names this system manipulates), written over the character list so that
it evaluates by kernel reduction. -/
def pyLower (s : String) : String := ⟨s.data.map Char.toLower⟩

/-- Helper for `pySplitDot`: split a character list at a separator,
accumulating the current (reversed) segment. -/
def pySplitAux (sep : Char) : List Char → List Char → List String
  | [], acc => [⟨acc.reverse⟩]
  | c :: cs, acc =>
    if c = sep then ⟨acc.reverse⟩ :: pySplitAux sep cs []
    else pySplitAux sep cs (c :: acc)

/-- Python `s.split('.')`: always non-empty, `"".split('.') == ['']`. -/
def pySplitDot (s : String) : List String := pySplitAux '.' s.data []

/-- Lexicographic comparison of character lists (Python string `<`). -/
def charListLt : List Char → List Char → Bool
  | [], [] => false
  | [], _ :: _ => true
  | _ :: _, [] => false
  | a :: as, b :: bs => if a = b then charListLt as bs else decide (a < b)

/-- Python exceptions that the embedded code can raise. -/
inductive PyError where
  | indexError
  | keyError
  | invalidEdges
  | invalidNodes
  | recursionError
deriving DecidableEq

/-- A graph node: a `(name, version)` pair, as produced by the environment
parser.  Identity for graph purposes is the lowercased name. -/
abbrev Node := String × String

/-- A directed edge between two nodes (`(node_from, node_to)`). -/
abbrev Edge := Node × Node

/-- First-match lookup in an association list, the model of `d[k]` on a
Python dict (which has unique keys). -/
def dictFind {κ α : Type} [DecidableEq κ] : List (κ × α) → κ → Option α
  | [], _ => none
  | (k1, v) :: rest, k => if k1 = k then some v else dictFind rest k

/-- Subscript read `d[k]` on a Python dict: `KeyError` when absent. -/
def dictGetE {κ α : Type} [DecidableEq κ] (d : List (κ × α)) (k : κ) :
    Except PyError α :=
  match dictFind d k with
  | some v => .ok v
  | none => .error .keyError

/-- Subscript write `d[k] = v` on a Python dict: replace the binding when
the key is present, append it otherwise. -/
def dictSet {κ α : Type} [DecidableEq κ] (d : List (κ × α)) (k : κ) (v : α) :
    List (κ × α) :=
  if (dictFind d k).isSome then
    d.map (fun p => if p.1 = k then (k, v) else p)
  else d ++ [(k, v)]

/-- Build a Python dict from a sequence of key/value pairs (the model of a
dict comprehension): later pairs overwrite earlier ones. -/
def pyDictOf {κ α : Type} [DecidableEq κ] (l : List (κ × α)) : List (κ × α) :=
  l.foldl (fun d p => dictSet d p.1 p.2) []

/-- Python `l[i]`: `IndexError` when out of range. -/
def pyIndex {α : Type} (l : List α) (i : Nat) : Except PyError α :=
  match l.get? i with
  | some a => .ok a
  | none => .error .indexError

/-- Python `l[-1]`: the last element, `IndexError` on an empty list. -/
def pyLast {α : Type} (l : List α) : Except PyError α :=
  match l.getLast? with
  | some a => .ok a
  | none => .error .indexError

/-! ## Version-staleness classifier (`Package.check_latest_major_minor_versions`) -/

/-- Modelled from the spec: a single token of the lenient version
comparator (`pkg_resources.parse_version`, an external library, spec §4.4
and §9): a run of digits is compared numerically, any other token is
compared lexicographically. -/
def versionToken (s : String) : Sum Nat String :=
  if s ≠ "" ∧ s.data.all Char.isDigit then
    Sum.inl (s.data.foldl (fun n c => n * 10 + (c.toNat - 48)) 0)
  else Sum.inr s

/-- Modelled from the spec: ordering of two version tokens. -/
def tokenLt : Sum Nat String → Sum Nat String → Bool
  | Sum.inl a, Sum.inl b => a < b
  | Sum.inr a, Sum.inr b => charListLt a.data b.data
  | Sum.inl _, Sum.inr _ => true
  | Sum.inr _, Sum.inl _ => false

/-- Modelled from the spec: lexicographic comparison of token lists, a
strict prefix being smaller. -/
def tokensLt : List (Sum Nat String) → List (Sum Nat String) → Bool
  | [], [] => false
  | [], _ :: _ => true
  | _ :: _, [] => false
  | a :: as, b :: bs => if a = b then tokensLt as bs else tokenLt a b

/-- Modelled from the spec: `pkg_resources.parse_version`, the lenient
version parser (external to the repository): split on dots and tokenise. -/
def parse_version (s : String) : List (Sum Nat String) :=
  (pySplitDot s).map versionToken

/-- Modelled from the spec: `parse_version a < parse_version b`. -/
def pvLt (a b : String) : Bool := tokensLt (parse_version a) (parse_version b)

/-- One of the two sub-records (`major_version` / `minor_version`) of the
verdict returned by the classifier. -/
structure VersionSubRecord where
  outdated : Option Bool
  latest : Option String
deriving DecidableEq

/-- The verdict record returned by `check_latest_major_minor_versions`. -/
structure VersionReturnInfo where
  major_version : VersionSubRecord
  minor_version : VersionSubRecord
  code : Int
deriving DecidableEq

/-- The list comprehension
`[x for x in versions if x.split('.')[0] == major_v and x.split('.')[1] == minor_v]`:
Python `and` short-circuits, so `x.split('.')[1]` (which can raise
`IndexError`) is evaluated only when the major segment matches. -/
def filterMinorVersions (major_v minor_v : String) :
    List String → Except PyError (List String)
  | [] => .ok []
  | x :: xs => do
    let first ← pyIndex (pySplitDot x) 0
    let keep ←
      if first == major_v then do
        let second ← pyIndex (pySplitDot x) 1
        pure (second == minor_v)
      else pure false
    let rest ← filterMinorVersions major_v minor_v xs
    pure (if keep then x :: rest else rest)

/-- Embedding of `Package.check_latest_major_minor_versions`.  The PyPI
lookup (`get_package_versions_from_pypi`) is an external network call
(spec §6); its result — the ascending-sorted list of released versions, or
`None` on failure — is passed in as `pypiVersions`. -/
def check_latest_major_minor_versions (package : String) (version : Option String)
    (pypiVersions : Option (List String)) : Except PyError VersionReturnInfo := do
  let _ := package
  let return_info : VersionReturnInfo :=
    { major_version := { outdated := none, latest := none },
      minor_version := { outdated := none, latest := none },
      code := -1 }
  match pypiVersions with
  | none => return return_info
  | some versions => do
    let latest_major_version ← pyLast versions
    match version with
    | none =>
      -- if not given a version, cannot do comparison; return latest
      return { return_info with
               major_version := { outdated := some true, latest := some latest_major_version },
               minor_version := { outdated := some true, latest := some latest_major_version } }
    | some version => do
      let beyond_up_to_date := pvLt latest_major_version version
      if beyond_up_to_date then
        return { major_version := { outdated := some false, latest := some version },
                 minor_version := { outdated := some false, latest := some version },
                 code := 999 }
      else if pvLt version latest_major_version then do
        let major_v ← pyIndex (pySplitDot version) 0
        let minor_v ← pyIndex (pySplitDot version) 1
        let minor_versions ← filterMinorVersions major_v minor_v versions
        if minor_versions.isEmpty then
          return { major_version := { outdated := some true, latest := some latest_major_version },
                   minor_version := { outdated := none, latest := none },
                   code := 1 }
        else do
          let latest_minor_version ← pyLast minor_versions
          let minor_outdated := pvLt version latest_minor_version
          return { major_version := { outdated := some true, latest := some latest_major_version },
                   minor_version := { outdated := some minor_outdated, latest := some latest_minor_version },
                   code := 1 }
      else
        return { major_version := { outdated := some false, latest := some latest_major_version },
                 minor_version := { outdated := some false, latest := some latest_major_version },
                 code := 0 }

/-! ## The `Package` object and its cached accessors -/

/-- The attributes of the Python `Package` object used by the accessors
under analysis (`name`, `key`, `version` and the two link caches; the
other memo fields are not involved in these claims). -/
structure Package where
  name : String
  key : String
  version : Option String
  _ancestors : List Edge
  _descendants : List Edge
deriving DecidableEq

/-- `Package.__init__`: `key` is the lowercased name and the caches start
empty. -/
def Package.init (name : String) (version : Option String) : Package :=
  { name := name, key := pyLower name, version := version,
    _ancestors := [], _descendants := [] }

/-- Instance accessor `Package.ancestors`: fills the `_ancestors` cache on
first (non-empty-cached) use and returns the cache. -/
def Package.ancestors (self : Package) (edges : List Edge) :
    List Edge × Package :=
  if self._ancestors.isEmpty then
    let r := edges.filter (fun x => self.key == pyLower x.2.1)
    (r, { self with _ancestors := r })
  else (self._ancestors, self)

/-- Instance accessor `Package.descendants`: same caching pattern on
`_descendants`. -/
def Package.descendants (self : Package) (edges : List Edge) :
    List Edge × Package :=
  if self._descendants.isEmpty then
    let r := edges.filter (fun x => self.key == pyLower x.1.1)
    (r, { self with _descendants := r })
  else (self._descendants, self)

/-- Static `Package.get_direct_links_to_any_package`: raises
`InvalidEdges` when the edge collection is empty, otherwise returns the
(ancestor, descendant) edge lists of `package`. -/
def Package.get_direct_links_to_any_package (package : String) (edges : List Edge) :
    Except PyError (List Edge × List Edge) :=
  if edges.isEmpty then .error .invalidEdges
  else
    .ok (edges.filter (fun x => pyLower package == pyLower x.2.1),
         edges.filter (fun x => pyLower package == pyLower x.1.1))

/-! ## Requirements reconciler (`Requirements.compare_req_file_to_env`) -/

/-- A parsed requirements-file entry (produced by the external
`pkg_resources.parse_requirements`): lowercased key, declared name and the
`(operator, version)` constraint list. -/
structure Requirement where
  key : String
  project_name : String
  specs : List (String × String)
deriving DecidableEq

/-- The sentinel used when a manifest entry carries no version pin. -/
def req_no_version : String := "-1"

/-- Resolution of a manifest entry's version in `compare_req_file_to_env`:
no constraints at all give the sentinel; otherwise
`[x[1] for x in specs if x[0] == '=='][0]` takes the FIRST `==` constraint
and raises `IndexError` when none exists; an empty pinned string also
falls back to the sentinel. -/
def resolve_req_version (specs : List (String × String)) : Except PyError String :=
  if specs.isEmpty then .ok req_no_version
  else
    match (specs.filter (fun x => x.1 == "==")).map (fun x => x.2) with
    | [] => .error .indexError
    | v :: _ => .ok (if v == "" then req_no_version else v)

/-- The version-comparison loop of `compare_req_file_to_env` over the keys
present in both the manifest and the environment, producing the `same`
and `verdiff` lists in iteration order. -/
def ver_check_loop (all_reqs : List (String × List (String × String)))
    (all_packages : List (String × Option String)) :
    List String →
    Except PyError (List (String × Option String) × List (String × String × Option String))
  | [] => .ok ([], [])
  | package :: rest => do
    let env_ver ← dictGetE all_packages package
    let specs ← dictGetE all_reqs package
    let req_ver ← resolve_req_version specs
    let (same, verdiff) ← ver_check_loop all_reqs all_packages rest
    if env_ver == some req_ver then
      .ok ((package, env_ver) :: same, verdiff)
    else
      .ok (same, (package, req_ver, env_ver) :: verdiff)

/-- The `all_reqs` dict of `compare_req_file_to_env`
(`{x.key: ... for x in parsed_req}`, keeping the `specs` values). -/
def all_reqs_of (parsed : List Requirement) : List (String × List (String × String)) :=
  pyDictOf (parsed.map (fun x => (x.key, x.specs)))

/-- The `req_only` list: manifest keys absent from the environment. -/
def req_only_of (parsed : List Requirement)
    (all_packages : List (String × Option String)) : List String :=
  ((all_reqs_of parsed).map (fun p => p.1)).filter
    (fun x => (dictFind all_packages x).isNone)

/-- The `env_only` list: environment keys absent from the manifest. -/
def env_only_of (parsed : List Requirement)
    (all_packages : List (String × Option String)) : List String :=
  (all_packages.map (fun p => p.1)).filter
    (fun x => (dictFind (all_reqs_of parsed) x).isNone)

/-- The `ver_check` list: manifest keys not in `req_only`. -/
def ver_check_of (parsed : List Requirement)
    (all_packages : List (String × Option String)) : List String :=
  ((all_reqs_of parsed).map (fun p => p.1)).filter
    (fun x => !((req_only_of parsed all_packages).contains x))

/-- Embedding of `Requirements.compare_req_file_to_env`.  The file read and
`pkg_resources.parse_requirements` are external (spec §6); their result is
passed in as `parsed_req` (`none` models the no-requirements-file early
return).  The environment's `all_packages` dict is modelled as key/version
pairs (`Package.version` may be `None`); only the `specs` part of the
`all_reqs` values is kept because `project_name` is never read. -/
def compare_req_file_to_env (parsed_req : Option (List Requirement))
    (all_packages : List (String × Option String)) :
    Except PyError (Option (List (String × Option String) ×
      List (String × String × Option String) × List String × List String)) := do
  match parsed_req with
  | none => return none
  | some parsed => do
    let (same, verdiff) ← ver_check_loop (all_reqs_of parsed) all_packages
      (ver_check_of parsed all_packages)
    return some (same, verdiff, req_only_of parsed all_packages,
      env_only_of parsed all_packages)

/-! ## Distance engine (`Package.calc_node_distances`) -/

/-- Leading-segment match of two lists (helper for substring search). -/
def leadMatch {α : Type} [DecidableEq α] : List α → List α → Bool
  | [], _ => true
  | _ :: _, [] => false
  | a :: as, b :: bs => decide (a = b) && leadMatch as bs

/-- Contiguous-subsequence search (helper for Python `in` on strings). -/
def subSeqAt {α : Type} [DecidableEq α] : List α → List α → Bool
  | needle, [] => needle.isEmpty
  | needle, b :: bs => leadMatch needle (b :: bs) || subSeqAt needle bs

/-- Python `needle in hay` on strings: substring containment. -/
def pyInStr (needle hay : String) : Bool := subSeqAt needle.data hay.data

/-- Modelled from the spec's external-interface description of nodes and
edges: Python `repr` of a string, for names and versions without
characters that `repr` would escape. -/
def pyReprStr (s : String) : String := "'" ++ s ++ "'"

/-- Python `str` of a node tuple `(name, version)`. -/
def strOfNode (n : Node) : String :=
  "(" ++ pyReprStr n.1 ++ ", " ++ pyReprStr n.2 ++ ")"

/-- Python `str(nx)` of an edge `((name, ver), (name, ver))` — the string
that `calc_node_distances` tests for the substring `'root'`. -/
def strOfEdge (e : Edge) : String :=
  "(" ++ strOfNode e.1 ++ ", " ++ strOfNode e.2 ++ ")"

/-- The sentinel distance (`start_distance = -999`). -/
def start_distance : Int := -999

/-- The traversal state of `rec_fun`: the `dist_dict` and `node_touched`
dicts that the Python closure mutates. -/
structure BfsState where
  dist : List (String × Int)
  touched : List (String × Bool)
deriving DecidableEq

/-- A list comprehension of the form
`[keyOf(nx) for nx in l if not node_touched[keyOf(nx)]]`: collects the
keys of untouched link targets, raising `KeyError` for a key missing from
`node_touched`. -/
def searchTargets (touched : List (String × Bool)) (keyOf : Edge → String) :
    List Edge → Except PyError (List String)
  | [] => .ok []
  | nx :: rest => do
    let t ← dictGetE touched (keyOf nx)
    let tail ← searchTargets touched keyOf rest
    pure (if t then tail else keyOf nx :: tail)

/-- The body of `rec_fun` for one element `p` of the search set: update
`dist_dict[p]` when `abs(dist_dict[p]) > cur_level`, mark `p` touched,
fetch its direct links (dropping edges whose `str` contains `'root'` when
`include_root` is false) and collect the untouched descendant and ancestor
keys to search next. -/
def procNode (include_root : Bool) (edges : List Edge) (st : BfsState)
    (cur_level : Nat) (p : String) : Except PyError (BfsState × List String) := do
  let d ← dictGetE st.dist p
  let dist1 := if (cur_level : Int) < |d| then dictSet st.dist p (cur_level : Int) else st.dist
  let touched1 := dictSet st.touched p true
  let (anc, dec) ← Package.get_direct_links_to_any_package p edges
  let anc := if include_root then anc else anc.filter (fun nx => !(pyInStr "root" (strOfEdge nx)))
  let dec := if include_root then dec else dec.filter (fun nx => !(pyInStr "root" (strOfEdge nx)))
  let dec_search ← searchTargets touched1 (fun nx => pyLower nx.2.1) dec
  let anc_search ← searchTargets touched1 (fun nx => pyLower nx.1.1) anc
  .ok (⟨dist1, touched1⟩, dec_search ++ anc_search)

/-- The `for p in search_set` loop of `rec_fun`, threading the state and
concatenating the collected next-level keys in processing order. -/
def procLevel (include_root : Bool) (edges : List Edge) :
    List String → BfsState → Nat → Except PyError (BfsState × List String)
  | [], st, _ => .ok (st, [])
  | p :: ps, st, cur_level => do
    let (st1, ts) ← procNode include_root edges st cur_level p
    let (st2, ts2) ← procLevel include_root edges ps st1 cur_level
    .ok (st2, ts ++ ts2)

/-- Embedding of the recursive closure `rec_fun`: process the current
search set, de-duplicate the gathered keys (`list(set(...))`; Python's set
order is unspecified, modelled with `List.dedup`) and recurse one level
deeper while the next set is non-empty.  The recursion depth is bounded by
explicit fuel; `calc_node_distances` supplies enough fuel for the
traversal to terminate on its own (proved below), so the fuel-exhaustion
branch is never taken. -/
def rec_fun (include_root : Bool) (edges : List Edge) :
    Nat → List String → BfsState → Nat → Except PyError BfsState
  | 0, _, _, _ => .error .recursionError
  | fuel + 1, search_set, st, cur_level => do
    let (st1, to_search) ← procLevel include_root edges search_set st cur_level
    let to_search := to_search.dedup
    if to_search.isEmpty then .ok st1
    else rec_fun include_root edges fuel to_search st1 (cur_level + 1)

/-- The two output shapes of `calc_node_distances` (`list_or_dict`). -/
inductive NodeDistances where
  | ofList : List (String × String × Int) → NodeDistances
  | ofDict : List (Node × Int) → NodeDistances
deriving DecidableEq

/-- The list-shaped output comprehension: one `(name, version, distance)`
triple per node, filtered to `distance > start_distance` unless
`keep_untouched_nodes`. -/
def listEntries (dist : List (String × Int)) (keep : Bool) :
    List Node → Except PyError (List (String × String × Int))
  | [] => .ok []
  | x :: xs => do
    let d ← dictGetE dist (pyLower x.1)
    let rest ← listEntries dist keep xs
    if keep then .ok ((x.1, x.2, d) :: rest)
    else if start_distance < d then .ok ((x.1, x.2, d) :: rest)
    else .ok rest

/-- The dict-shaped output comprehension: the `(name, version) ↦ distance`
pairs in node order, before dict construction. -/
def dictPairs (dist : List (String × Int)) (keep : Bool) :
    List Node → Except PyError (List (Node × Int))
  | [] => .ok []
  | x :: xs => do
    let d ← dictGetE dist (pyLower x.1)
    let rest ← dictPairs dist keep xs
    if keep then .ok (((x.1, x.2), d) :: rest)
    else if start_distance < d then .ok (((x.1, x.2), d) :: rest)
    else .ok rest

/-- Embedding of the static `Package.calc_node_distances`.  The node and
edge collections are lists (always iterable, so the `InvalidNodes` branch
for non-iterable input is not representable); everything else follows the
source: initialise `dist_dict`/`node_touched` (adding `'root'` when
`include_root`), return an empty result when the origin key is absent,
run `rec_fun` from level 0, then build the requested output shape,
appending the root node's entry when `include_root`. -/
def calc_node_distances (package_in : String) (nodes : List Node) (edges : List Edge)
    (include_root : Bool) (keep_untouched_nodes : Bool) (list_or_dict : String) :
    Except PyError NodeDistances := do
  let package := pyLower package_in
  let dist_dict := pyDictOf (nodes.map (fun x => (pyLower x.1, start_distance)))
  let dist_dict := if include_root then dictSet dist_dict "root" start_distance else dist_dict
  if (dictFind dist_dict package).isNone then
    if list_or_dict == "list" then .ok (.ofList []) else .ok (.ofDict [])
  else do
    let node_touched := pyDictOf (nodes.map (fun x => (pyLower x.1, false)))
    let node_touched := if include_root then dictSet node_touched "root" false else node_touched
    let st ← rec_fun include_root edges (nodes.length + 2) [pyLower package]
      ⟨dist_dict, node_touched⟩ 0
    if list_or_dict == "list" then do
      let entries ← listEntries st.dist keep_untouched_nodes nodes
      if include_root then do
        let droot ← dictGetE st.dist "root"
        .ok (.ofList (entries ++ [("root", "0.0.0", droot)]))
      else .ok (.ofList entries)
    else do
      let pairs ← dictPairs st.dist keep_untouched_nodes nodes
      let entries := pyDictOf pairs
      if include_root then do
        let droot ← dictGetE st.dist "root"
        .ok (.ofDict (dictSet entries ("root", "0.0.0") droot))
      else .ok (.ofDict entries)

/-- Distance that an output of `calc_node_distances` assigns to a node:
first matching triple for the list shape, dict lookup for the dict shape. -/
def distOf (r : NodeDistances) (n : Node) : Option Int :=
  match r with
  | .ofList l => (l.find? (fun t => t.1 == n.1 && t.2.1 == n.2)).map (fun t => t.2.2)
  | .ofDict d => dictFind d n

/-! ## Reachability notions used to state the distance claims -/

/-- The lowercased node keys of a node collection. -/
def nodeKeys (nodes : List Node) : List String := nodes.map (fun x => pyLower x.1)

/-- The keys of the traversal dicts: the node keys, plus `'root'` when
`include_root`. -/
def isEnvKey (include_root : Bool) (nodes : List Node) (k : String) : Prop :=
  k ∈ nodeKeys nodes ∨ (include_root = true ∧ k = "root")

instance (include_root : Bool) (nodes : List Node) (k : String) :
    Decidable (isEnvKey include_root nodes k) := by
  unfold isEnvKey; infer_instance

/-- The edges actually used by the traversal: all of them when
`include_root`, otherwise those whose `str` does not contain `'root'`. -/
def keptEdges (include_root : Bool) (edges : List Edge) : List Edge :=
  if include_root then edges
  else edges.filter (fun nx => !(pyInStr "root" (strOfEdge nx)))

/-- The neighbour keys which one pass of `rec_fun` gathers from node key
`p` (before the touched filter): descendant targets then ancestor
sources, lowercased, over the kept edges. -/
def adjKeys (include_root : Bool) (edges : List Edge) (p : String) : List String :=
  ((keptEdges include_root edges).filter (fun x => pyLower p == pyLower x.1.1)).map
      (fun x => pyLower x.2.1)
    ++ ((keptEdges include_root edges).filter (fun x => pyLower p == pyLower x.2.1)).map
      (fun x => pyLower x.1.1)

/-- `ReachN adj src n k`: `k` is connected to `src` by some walk of
exactly `n` hops through the neighbour function `adj`. -/
inductive ReachN (adj : String → List String) (src : String) : Nat → String → Prop where
  | refl : ReachN adj src 0 src
  | step : ∀ {n p q}, ReachN adj src n p → q ∈ adj p → ReachN adj src (n + 1) q

/-- `k` is reachable from `src`. -/
def Reachable (adj : String → List String) (src k : String) : Prop :=
  ∃ n, ReachN adj src n k

/-- `m` is the minimum number of hops connecting `src` to `k`. -/
def IsMinHop (adj : String → List String) (src k : String) (m : Nat) : Prop :=
  ReachN adj src m k ∧ ∀ j, ReachN adj src j k → m ≤ j

/-- The distance value the engine records for a node whose minimum hop
count is `m`: the level update is guarded by `abs(-999) > cur_level`, so
levels of 999 or more never overwrite the sentinel. -/
def capDist (m : Nat) : Int := if m < 999 then (m : Int) else start_distance

/-- Number of untouched entries of the `node_touched` dict (used to bound
the recursion depth of `rec_fun`). -/
def untouchedCount (t : List (String × Bool)) : Nat := t.countP (fun p => !p.2)

/-- The invariant of the traversal state while `rec_fun` is processing
level `L`: the two dicts keep the environment key set; touched keys have
a minimum hop count of at most `L`; keys within distance `< L` are
already touched; touched keys carry their capped distance and untouched
keys the sentinel. -/
def MidInv (ir : Bool) (nodes : List Node) (edges : List Edge) (src : String)
    (L : Nat) (st : BfsState) : Prop :=
  (∀ k, (dictFind st.dist k).isSome ↔ isEnvKey ir nodes k) ∧
  (∀ k, (dictFind st.touched k).isSome ↔ isEnvKey ir nodes k) ∧
  (∀ k, isEnvKey ir nodes k →
    (dictFind st.touched k = some true →
      ∃ m, m ≤ L ∧ IsMinHop (adjKeys ir edges) src k m) ∧
    ((∃ m, m < L ∧ IsMinHop (adjKeys ir edges) src k m) →
      dictFind st.touched k = some true) ∧
    (∀ m, IsMinHop (adjKeys ir edges) src k m →
      dictFind st.touched k = some true → dictFind st.dist k = some (capDist m)) ∧
    (dictFind st.touched k = some false → dictFind st.dist k = some start_distance))

/-- The list of next-level keys gathered by one `procNode` step (the kept
descendant targets then the kept ancestor sources whose key is untouched
after `p` itself has been marked). -/
def gatherTargets (ir : Bool) (edges : List Edge) (touched1 : List (String × Bool))
    (p : String) : List String :=
  (((keptEdges ir edges).filter (fun x => pyLower p == pyLower x.1.1)).filter
    (fun nx => dictFind touched1 (pyLower nx.2.1) == some false)).map
    (fun nx => pyLower nx.2.1) ++
  (((keptEdges ir edges).filter (fun x => pyLower p == pyLower x.2.1)).filter
    (fun nx => dictFind touched1 (pyLower nx.1.1) == some false)).map
    (fun nx => pyLower nx.1.1)

/-! ## Basic lemmas -/

theorem except_bind_ok {e a b : Type} (x : a) (f : a → Except e b) :
    (Except.ok x >>= f) = f x := rfl

theorem except_pure_eq {e a : Type} (x : a) : (pure x : Except e a) = Except.ok x := rfl

theorem dictFind_some_mem_keys {κ α : Type} [DecidableEq κ] {d : List (κ × α)} {k : κ} {v : α}
    (h : dictFind d k = some v) : k ∈ d.map (fun p => p.1) := by
  induction d with
  | nil => simp [dictFind] at h
  | cons p rest ih =>
    by_cases hk : p.1 = k
    · simp [hk]
    · simp only [dictFind, if_neg hk] at h
      simp [ih h]

theorem except_error_bind {e a b : Type} (err : e) (f : a → Except e b) :
    (Except.error err >>= f) = Except.error err := rfl

theorem dictFind_replaceAll {κ α : Type} [DecidableEq κ] (d : List (κ × α)) (k k' : κ) (v : α) :
    dictFind (d.map (fun p => if p.1 = k then (k, v) else p)) k' =
      if k = k' then (dictFind d k).map (fun _ => v) else dictFind d k' := by
  induction d with
  | nil => simp [dictFind]
  | cons p rest ih =>
    simp only [List.map_cons]
    by_cases h1 : p.1 = k
    · rw [if_pos h1]
      by_cases h2 : k = k'
      · subst h2
        simp [dictFind, h1]
      · have h3 : ¬ p.1 = k' := by rw [h1]; exact h2
        simp [dictFind, h2, h3, ih]
    · rw [if_neg h1]
      by_cases h2 : p.1 = k'
      · have hk : ¬ k = k' := by
          intro h
          exact h1 (by rw [h]; exact h2)
        simp [dictFind, h2, hk]
      · simp [dictFind, h1, h2, ih]

theorem dictFind_append {κ α : Type} [DecidableEq κ] (d1 d2 : List (κ × α)) (k : κ) :
    dictFind (d1 ++ d2) k =
      match dictFind d1 k with
      | some v => some v
      | none => dictFind d2 k := by
  induction d1 with
  | nil => simp [dictFind]
  | cons p rest ih =>
    by_cases h1 : p.1 = k
    · simp [dictFind, h1]
    · simp [dictFind, h1, ih]

theorem dictFind_dictSet {κ α : Type} [DecidableEq κ] (d : List (κ × α)) (k k' : κ) (v : α) :
    dictFind (dictSet d k v) k' = if k = k' then some v else dictFind d k' := by
  unfold dictSet
  by_cases hs : (dictFind d k).isSome
  · rw [if_pos hs, dictFind_replaceAll]
    by_cases h2 : k = k'
    · obtain ⟨w, hw⟩ := Option.isSome_iff_exists.mp hs
      subst h2
      rw [if_pos rfl, if_pos rfl, hw]
      rfl
    · rw [if_neg h2, if_neg h2]
  · rw [if_neg hs, dictFind_append]
    by_cases h2 : k = k'
    · subst h2
      rw [Option.not_isSome_iff_eq_none] at hs
      simp [hs, dictFind]
    · by_cases h3 : (dictFind d k').isSome
      · obtain ⟨w, hw⟩ := Option.isSome_iff_exists.mp h3
        simp [h2, hw]
      · rw [Option.not_isSome_iff_eq_none] at h3
        simp [h2, h3, dictFind]

theorem dictFind_foldl_isSome {κ α : Type} [DecidableEq κ] (l : List (κ × α)) (k : κ) :
    ∀ d0 : List (κ × α),
      (dictFind (l.foldl (fun d p => dictSet d p.1 p.2) d0) k).isSome ↔
        k ∈ l.map (fun p => p.1) ∨ (dictFind d0 k).isSome := by
  induction l with
  | nil => intro d0; simp
  | cons p rest ih =>
    intro d0
    simp only [List.foldl_cons, List.map_cons, List.mem_cons]
    rw [ih (dictSet d0 p.1 p.2), dictFind_dictSet]
    by_cases h1 : p.1 = k
    · simp [h1]
    · simp only [if_neg h1]
      constructor
      · intro h
        rcases h with h | h
        · exact Or.inl (Or.inr h)
        · exact Or.inr h
      · intro h
        rcases h with (h | h) | h
        · exact absurd h.symm h1
        · exact Or.inl h
        · exact Or.inr h

theorem dictFind_pyDictOf_isSome {κ α : Type} [DecidableEq κ] (l : List (κ × α)) (k : κ) :
    (dictFind (pyDictOf l) k).isSome ↔ k ∈ l.map (fun p => p.1) := by
  rw [pyDictOf, dictFind_foldl_isSome]
  simp [dictFind]

theorem dictFind_pyDictOf_uniform {κ α : Type} [DecidableEq κ] (l : List (κ × α)) (k : κ)
    (v : α) (hv : ∀ p ∈ l, p.1 = k → p.2 = v) :
    dictFind (pyDictOf l) k =
      if k ∈ l.map (fun p => p.1) then some v else none := by
  have main : ∀ l' : List (κ × α), (∀ p ∈ l', p.1 = k → p.2 = v) →
      ∀ d0 : List (κ × α),
      dictFind (l'.foldl (fun d p => dictSet d p.1 p.2) d0) k =
        if k ∈ l'.map (fun p => p.1) then some v else dictFind d0 k := by
    intro l'
    induction l' with
    | nil => intro _ d0; simp
    | cons p rest ih =>
      intro hv' d0
      simp only [List.foldl_cons, List.map_cons, List.mem_cons]
      rw [ih (fun q hq => hv' q (List.mem_cons_of_mem p hq)) (dictSet d0 p.1 p.2),
        dictFind_dictSet]
      by_cases h1 : p.1 = k
      · have hval : p.2 = v := hv' p (List.mem_cons_self p rest) h1
        by_cases h2 : k ∈ rest.map (fun q => q.1)
        · simp [h1, h2]
        · simp [h1, h2, hval]
      · have : ¬ k = p.1 := fun h => h1 h.symm
        by_cases h2 : k ∈ rest.map (fun q => q.1)
        · simp [h1, h2]
        · simp [h1, h2, this]
  rw [pyDictOf, main l hv]
  simp [dictFind]

/-! ## Claim C2 (version classification of "1.0.0") -/

/-- Claim C2, counterexample: against the index
`["1.0.0", "1.5.0", "2.0.0"]` the classifier reports minor outdated
`false` (the `"1.5.0"` release does not share the minor segment `"0"` of
`"1.0.0"`, so it is excluded from the minor candidate list), refuting the
claim's "minor outdated true". -/
theorem claim_C2_counterexample :
    check_latest_major_minor_versions "pkg" (some "1.0.0") (some ["1.0.0", "1.5.0", "2.0.0"]) =
      .ok { major_version := { outdated := some true, latest := some "2.0.0" },
            minor_version := { outdated := some false, latest := some "1.0.0" },
            code := 1 }
    ∧ ¬ ∃ r, check_latest_major_minor_versions "pkg" (some "1.0.0")
          (some ["1.0.0", "1.5.0", "2.0.0"]) = .ok r ∧ r.minor_version.outdated = some true := by
  refine ⟨by decide, ?_⟩
  rintro ⟨r, hr, ho⟩
  rw [show check_latest_major_minor_versions "pkg" (some "1.0.0")
        (some ["1.0.0", "1.5.0", "2.0.0"]) =
      .ok { major_version := { outdated := some true, latest := some "2.0.0" },
            minor_version := { outdated := some false, latest := some "1.0.0" },
            code := 1 } from by decide] at hr
  injection hr with h
  rw [← h] at ho
  exact absurd ho (by decide)

/-- Claim C2, amended: `check_latest_major_minor_versions("pkg", "1.0.0")`
against the sorted index `["1.0.0", "1.5.0", "2.0.0"]` yields status 1
with major outdated true and major latest `"2.0.0"`, but minor outdated
false with minor latest `"1.0.0"`: only versions sharing both the major
and the minor segment of the installed version enter the minor
comparison, so the `"1.5.0"` release plays no role there. -/
theorem claim_C2_theorem :
    check_latest_major_minor_versions "pkg" (some "1.0.0") (some ["1.0.0", "1.5.0", "2.0.0"]) =
      .ok { major_version := { outdated := some true, latest := some "2.0.0" },
            minor_version := { outdated := some false, latest := some "1.0.0" },
            code := 1 } := by decide

/-! ## Claim C3 (classification with no installed version) -/

/-- Claim C3, counterexample: with installed version absent, the returned
verdict keeps the initial status code `-1` (it is never reset to `0`),
refuting the claim's "status-0 verdict structure". -/
theorem claim_C3_counterexample :
    check_latest_major_minor_versions "pkg" none (some ["1.0.0", "2.0.0"]) =
      .ok { major_version := { outdated := some true, latest := some "2.0.0" },
            minor_version := { outdated := some true, latest := some "2.0.0" },
            code := -1 }
    ∧ ∀ r, check_latest_major_minor_versions "pkg" none (some ["1.0.0", "2.0.0"]) = .ok r →
        r.code ≠ 0 := by
  refine ⟨by decide, ?_⟩
  intro r hr
  rw [show check_latest_major_minor_versions "pkg" none (some ["1.0.0", "2.0.0"]) =
      .ok { major_version := { outdated := some true, latest := some "2.0.0" },
            minor_version := { outdated := some true, latest := some "2.0.0" },
            code := -1 } from by decide] at hr
  injection hr with h
  rw [← h]
  decide

/-- Claim C3, amended: for every package whose index lookup succeeds with
a non-empty version list, classification with installed version absent
returns a verdict whose status code is the initial `-1` (not `0`), with
both sub-records marked outdated and both latest fields equal to the
index's last (maximum) version. -/
theorem claim_C3_theorem (package : String) (vs : List String) (h : vs ≠ []) :
    check_latest_major_minor_versions package none (some vs) =
      .ok { major_version := { outdated := some true, latest := vs.getLast? },
            minor_version := { outdated := some true, latest := vs.getLast? },
            code := -1 } := by
  obtain ⟨l, hl⟩ := Option.isSome_iff_exists.mp (List.getLast?_isSome.mpr h)
  simp [check_latest_major_minor_versions, pyLast, hl]

/-- Witness for C3 at a concrete input. -/
theorem claim_C3_witness :
    (["1.0.0"] : List String) ≠ [] ∧
    check_latest_major_minor_versions "pkg" none (some ["1.0.0"]) =
      .ok { major_version := { outdated := some true, latest := ["1.0.0"].getLast? },
            minor_version := { outdated := some true, latest := ["1.0.0"].getLast? },
            code := -1 } :=
  ⟨by decide, claim_C3_theorem "pkg" ["1.0.0"] (by decide)⟩

/-! ## Claim C6 (classification never raises) -/

/-- Claim C6, counterexample: an installed version with fewer than two
dot-separated segments makes `version.split('.')[1]` raise `IndexError`
once the major version is outdated, so the classifier does not return a
verdict for every input. -/
theorem claim_C6_counterexample :
    check_latest_major_minor_versions "pkg" (some "1") (some ["1", "2"]) =
      .error .indexError := by decide

/-- Claim C6, amended: an index-lookup failure is recovered locally into
the status `-1` / unknown verdict for every package name and every
installed version (no exception propagates from that path); however, some
installed version strings — those with fewer than two dot-separated
segments, when the major version is outdated — do cause an `IndexError`
to propagate. -/
theorem claim_C6_theorem (package : String) (version : Option String) :
    check_latest_major_minor_versions package version none =
      .ok { major_version := { outdated := none, latest := none },
            minor_version := { outdated := none, latest := none },
            code := -1 } := rfl

/-! ## Claim C7 (installed version beyond the index) -/

/-- Claim C7: when the index lookup returns a version list whose last
element compares less than the installed version under the lenient
comparator, the classifier returns status 999 with both sub-records not
outdated and both latest fields equal to the installed version itself. -/
theorem claim_C7_theorem (package v : String) (vs : List String) (l : String)
    (hl : vs.getLast? = some l) (hgt : pvLt l v = true) :
    check_latest_major_minor_versions package (some v) (some vs) =
      .ok { major_version := { outdated := some false, latest := some v },
            minor_version := { outdated := some false, latest := some v },
            code := 999 } := by
  simp [check_latest_major_minor_versions, pyLast, hl, except_bind_ok, except_pure_eq, hgt]

/-- Witness for C7 at a concrete input. -/
theorem claim_C7_witness :
    (["1.0.0", "1.5.0", "2.0.0"] : List String).getLast? = some "2.0.0"
    ∧ pvLt "2.0.0" "3.0.0" = true
    ∧ check_latest_major_minor_versions "pkg" (some "3.0.0")
        (some ["1.0.0", "1.5.0", "2.0.0"]) =
      .ok { major_version := { outdated := some false, latest := some "3.0.0" },
            minor_version := { outdated := some false, latest := some "3.0.0" },
            code := 999 } :=
  ⟨by decide, by decide,
   claim_C7_theorem "pkg" "3.0.0" ["1.0.0", "1.5.0", "2.0.0"] "2.0.0" (by decide) (by decide)⟩

/-! ## Claim C10 (cached instance accessors) -/

/-- Claim C10: once a call to the instance accessor `ancestors`
(respectively `descendants`) with edges `e1` yields a non-empty list, any
later call with any edge collection `e2` returns the `e1`-based result
and leaves the object unchanged; both accessors accept an empty edge
collection (returning an empty list, no exception), unlike the static
`get_direct_links_to_any_package`, which raises `InvalidEdges` on empty
edges. -/
theorem claim_C10_theorem (self : Package) (e1 e2 : List Edge)
    (h1 : (Package.ancestors self e1).1 ≠ [])
    (h2 : (Package.descendants self e1).1 ≠ []) :
    Package.ancestors (Package.ancestors self e1).2 e2 = Package.ancestors self e1
    ∧ Package.descendants (Package.descendants self e1).2 e2 = Package.descendants self e1
    ∧ (∀ s : Package, s._ancestors = [] → (Package.ancestors s []).1 = [])
    ∧ (∀ s : Package, s._descendants = [] → (Package.descendants s []).1 = [])
    ∧ (∀ p : String, Package.get_direct_links_to_any_package p [] = .error .invalidEdges) := by
  refine ⟨?_, ?_, ?_, ?_, ?_⟩
  · by_cases he : self._ancestors.isEmpty
    · simp only [Package.ancestors, if_pos he] at h1 ⊢
      rw [if_neg (by simpa [List.isEmpty_iff] using h1)]
    · simp only [Package.ancestors, if_neg he] at h1 ⊢
  · by_cases he : self._descendants.isEmpty
    · simp only [Package.descendants, if_pos he] at h2 ⊢
      rw [if_neg (by simpa [List.isEmpty_iff] using h2)]
    · simp only [Package.descendants, if_neg he] at h2 ⊢
  · intro s hs
    simp [Package.ancestors, hs]
  · intro s hs
    simp [Package.descendants, hs]
  · intro p
    rfl

/-- Witness for C10 at a concrete package and edge lists. -/
theorem claim_C10_witness :
    (Package.ancestors (Package.init "b" none)
        [(("a", "1"), ("b", "1")), (("b", "1"), ("c", "1"))]).1 ≠ []
    ∧ (Package.descendants (Package.init "b" none)
        [(("a", "1"), ("b", "1")), (("b", "1"), ("c", "1"))]).1 ≠ []
    ∧ (Package.ancestors
        (Package.ancestors (Package.init "b" none)
          [(("a", "1"), ("b", "1")), (("b", "1"), ("c", "1"))]).2
        [(("z", "9"), ("b", "9"))] =
      Package.ancestors (Package.init "b" none)
        [(("a", "1"), ("b", "1")), (("b", "1"), ("c", "1"))]) := by
  refine ⟨by decide, by decide, ?_⟩
  exact (claim_C10_theorem (Package.init "b" none)
    [(("a", "1"), ("b", "1")), (("b", "1"), ("c", "1"))] [(("z", "9"), ("b", "9"))]
    (by decide) (by decide)).1

/-! ## Claim C4 (requirements/environment version comparison) -/

theorem ver_check_loop_mem (all_reqs : List (String × List (String × String)))
    (env : List (String × Option String))
    (package : String) (env_ver : Option String) (specs : List (String × String)) (rv : String)
    (henv : dictFind env package = some env_ver)
    (hspecs : dictFind all_reqs package = some specs)
    (hrv : resolve_req_version specs = .ok rv) :
    ∀ (l : List String) (same : List (String × Option String))
      (verdiff : List (String × String × Option String)),
      ver_check_loop all_reqs env l = .ok (same, verdiff) → package ∈ l →
      (env_ver = some rv → (package, env_ver) ∈ same) ∧
      (env_ver ≠ some rv → (package, rv, env_ver) ∈ verdiff) := by
  intro l
  induction l with
  | nil =>
    intro same verdiff hok hp
    cases hp
  | cons p rest ih =>
    intro same verdiff hok hp
    simp only [ver_check_loop] at hok
    cases hgp : dictGetE env p with
    | error e => rw [hgp, except_error_bind] at hok; cases hok
    | ok ev =>
    rw [hgp, except_bind_ok] at hok
    cases hgs : dictGetE all_reqs p with
    | error e => rw [hgs, except_error_bind] at hok; cases hok
    | ok sp =>
    rw [hgs, except_bind_ok] at hok
    cases hgr : resolve_req_version sp with
    | error e => rw [hgr, except_error_bind] at hok; cases hok
    | ok rq =>
    rw [hgr, except_bind_ok] at hok
    cases hrest : ver_check_loop all_reqs env rest with
    | error e => rw [hrest, except_error_bind] at hok; cases hok
    | ok pr =>
    obtain ⟨s0, v0⟩ := pr
    rw [hrest, except_bind_ok] at hok
    rcases List.mem_cons.mp hp with hpp | hpr
    · rw [← hpp] at hgp hgs hok
      have hev : ev = env_ver := by
        unfold dictGetE at hgp
        rw [henv] at hgp
        exact (Except.ok.inj hgp).symm
      have hsp : sp = specs := by
        unfold dictGetE at hgs
        rw [hspecs] at hgs
        exact (Except.ok.inj hgs).symm
      have hrq : rq = rv := by
        rw [hsp, hrv] at hgr
        exact (Except.ok.inj hgr).symm
      rw [hev, hrq] at hok
      by_cases hc : env_ver == some rv
      · rw [if_pos hc] at hok
        obtain ⟨hsame, hvd⟩ := Prod.mk.inj (Except.ok.inj hok)
        rw [← hsame]
        constructor
        · intro _
          exact List.mem_cons_self _ _
        · intro hne
          exact absurd (eq_of_beq hc) hne
      · rw [if_neg hc] at hok
        obtain ⟨hsame, hvd⟩ := Prod.mk.inj (Except.ok.inj hok)
        rw [← hvd]
        constructor
        · intro heq
          exact absurd (beq_iff_eq.mpr heq) hc
        · intro _
          exact List.mem_cons_self _ _
    · have hrec := ih s0 v0 hrest hpr
      by_cases hc : ev == some rq
      · rw [if_pos hc] at hok
        obtain ⟨hsame, hvd⟩ := Prod.mk.inj (Except.ok.inj hok)
        rw [← hsame, ← hvd]
        exact ⟨fun h => List.mem_cons_of_mem _ (hrec.1 h), hrec.2⟩
      · rw [if_neg hc] at hok
        obtain ⟨hsame, hvd⟩ := Prod.mk.inj (Except.ok.inj hok)
        rw [← hsame, ← hvd]
        exact ⟨hrec.1, fun h => List.mem_cons_of_mem _ (hrec.2 h)⟩

set_option synthInstance.maxSize 512 in
/-- Claim C4, counterexample: a manifest entry with the two constraints
`== 1.0` and `== 2.0` against an environment carrying `2.0` lands in
`version_diff` with resolved version `"1.0"`: the comprehension
`[x[1] for x in specs if x[0] == '=='][0]` honours the FIRST `==`
constraint, not the last, refuting the claim at this input. -/
theorem claim_C4_counterexample :
    compare_req_file_to_env
        (some [{ key := "a", project_name := "A", specs := [("==", "1.0"), ("==", "2.0")] }])
        [("a", some "2.0")] =
      .ok (some ([], [("a", "1.0", some "2.0")], [], []))
    ∧ ¬ ∃ s v ro eo, compare_req_file_to_env
        (some [{ key := "a", project_name := "A", specs := [("==", "1.0"), ("==", "2.0")] }])
        [("a", some "2.0")] = .ok (some (s, v, ro, eo)) ∧ ("a", some "2.0") ∈ s := by
  refine ⟨by decide, ?_⟩
  rintro ⟨s, v, ro, eo, hok, hmem⟩
  rw [show compare_req_file_to_env
      (some [{ key := "a", project_name := "A", specs := [("==", "1.0"), ("==", "2.0")] }])
      [("a", some "2.0")] = .ok (some ([], [("a", "1.0", some "2.0")], [], []))
    from by decide] at hok
  simp only [Except.ok.injEq, Option.some.injEq, Prod.mk.injEq] at hok
  obtain ⟨hs, -, -, -⟩ := hok
  rw [← hs] at hmem
  cases hmem

/-- Claim C4, amended: for every package key present in both the manifest
and the environment, the resolved manifest version is the FIRST `==`
constraint when at least one exists; the explicit unversioned sentinel
`"-1"` is used only when the entry carries no constraints at all (an
entry with constraints but no `==` raises `IndexError` instead); the
resolved version is then compared with the environment's installed
version — equal goes to `same`, unequal goes to `version_diff` with both
values recorded. -/
theorem claim_C4_theorem (parsed : List Requirement) (env : List (String × Option String))
    (same : List (String × Option String)) (verdiff : List (String × String × Option String))
    (req_only env_only : List String)
    (hok : compare_req_file_to_env (some parsed) env =
      .ok (some (same, verdiff, req_only, env_only)))
    (package : String) (specs : List (String × String)) (env_ver : Option String) (rv : String)
    (hspecs : dictFind (all_reqs_of parsed) package = some specs)
    (henv : dictFind env package = some env_ver)
    (hrv : resolve_req_version specs = .ok rv) :
    (env_ver = some rv → (package, env_ver) ∈ same) ∧
    (env_ver ≠ some rv → (package, rv, env_ver) ∈ verdiff) := by
  simp only [compare_req_file_to_env] at hok
  cases hloop : ver_check_loop (all_reqs_of parsed) env (ver_check_of parsed env) with
  | error e =>
    rw [hloop, except_error_bind] at hok
    cases hok
  | ok pr =>
    obtain ⟨s0, v0⟩ := pr
    rw [hloop, except_bind_ok] at hok
    rw [except_pure_eq] at hok
    simp only [Except.ok.injEq, Option.some.injEq, Prod.mk.injEq] at hok
    obtain ⟨hs, hv, -, -⟩ := hok
    rw [← hs, ← hv]
    refine ver_check_loop_mem _ env package env_ver specs rv henv hspecs hrv _ s0 v0 hloop ?_
    unfold ver_check_of
    rw [List.mem_filter]
    refine ⟨dictFind_some_mem_keys hspecs, ?_⟩
    have hnot : package ∉ req_only_of parsed env := by
      intro hmem
      unfold req_only_of at hmem
      rw [List.mem_filter, henv] at hmem
      simp at hmem
    simpa using hnot

set_option synthInstance.maxSize 512 in
/-- Witness for C4 at a concrete manifest and environment. -/
theorem claim_C4_witness :
    compare_req_file_to_env
        (some [{ key := "a", project_name := "A", specs := [("==", "1.0")] }])
        [("a", some "1.0")] =
      .ok (some ([("a", some "1.0")], [], [], []))
    ∧ dictFind (all_reqs_of [{ key := "a", project_name := "A", specs := [("==", "1.0")] }])
        "a" = some [("==", "1.0")]
    ∧ dictFind [("a", some "1.0")] "a" = some (some "1.0")
    ∧ resolve_req_version [("==", "1.0")] = .ok "1.0"
    ∧ ((some "1.0" = some "1.0" → (("a", some "1.0") ∈ [("a", some "1.0")])) ∧
       (some "1.0" ≠ some "1.0" →
         (("a", "1.0", some "1.0") ∈ ([] : List (String × String × Option String))))) :=
  ⟨by decide, by decide, by decide, by decide,
   claim_C4_theorem [{ key := "a", project_name := "A", specs := [("==", "1.0")] }]
     [("a", some "1.0")] [("a", some "1.0")] [] [] [] (by decide)
     "a" [("==", "1.0")] (some "1.0") "1.0" (by decide) (by decide) (by decide)⟩

/-! ## Claim C9 (absent origin returns an empty result) -/

/-- Claim C9: with the default `include_root = False`, for every node
collection, origin key absent from the node set and any edge collection
at all, `calc_node_distances` returns an empty result of the requested
shape without raising. -/
theorem claim_C9_theorem (package_in : String) (nodes : List Node) (edges : List Edge)
    (keep : Bool) (shape : String)
    (h : pyLower package_in ∉ nodeKeys nodes) :
    calc_node_distances package_in nodes edges false keep shape =
      .ok (if shape == "list" then .ofList [] else .ofDict []) := by
  unfold calc_node_distances
  have hkeys : ((nodes.map (fun x => (pyLower x.1, start_distance))).map (fun p => p.1)) =
      nodeKeys nodes := by
    simp [nodeKeys]
  have hnone : (dictFind (pyDictOf (nodes.map (fun x => (pyLower x.1, start_distance))))
      (pyLower package_in)).isNone = true := by
    rw [Option.isNone_iff_eq_none, ← Option.not_isSome_iff_eq_none,
      dictFind_pyDictOf_isSome, hkeys]
    exact h
  simp only [Bool.false_eq_true, if_false, hnone, if_true]
  by_cases hs : shape == "list"
  · simp [hs]
  · simp [hs]

/-- Witness for C9 at a concrete call. -/
theorem claim_C9_witness :
    pyLower "a" ∉ nodeKeys [("b", "1.0")]
    ∧ calc_node_distances "a" [("b", "1.0")] [(("x", "1"), ("y", "1"))] false false "list" =
      .ok (if "list" == "list" then .ofList [] else .ofDict []) :=
  ⟨by decide, claim_C9_theorem "a" [("b", "1.0")] [(("x", "1"), ("y", "1"))] false "list"
    (by decide)⟩

/-! ## Lowercasing is idempotent -/

theorem toNat_ofNat_valid (n : Nat) (h : n.isValidChar) : (Char.ofNat n).toNat = n := by
  unfold Char.ofNat
  rw [dif_pos h]
  rfl

theorem charToLower_idem (c : Char) : c.toLower.toLower = c.toLower := by
  by_cases h : c.toNat ≥ 65 ∧ c.toNat ≤ 90
  · have hv : (c.toNat + 32).isValidChar := Or.inl (by omega)
    have ht := toNat_ofNat_valid (c.toNat + 32) hv
    have hl : c.toLower = Char.ofNat (c.toNat + 32) := by
      simp only [Char.toLower]
      rw [if_pos h]
    rw [hl]
    simp only [Char.toLower, ht]
    rw [if_neg (by omega)]
  · have hc : c.toLower = c := by
      simp only [Char.toLower]
      rw [if_neg h]
    rw [hc, hc]

theorem pyLower_idem (s : String) : pyLower (pyLower s) = pyLower s := by
  unfold pyLower
  congr 1
  show (s.data.map Char.toLower).map Char.toLower = s.data.map Char.toLower
  rw [List.map_map]
  exact List.map_congr_left (fun c _ => charToLower_idem c)

/-! ## Reachability lemmas -/

theorem isMinHop_unique {adj : String → List String} {src k : String} {m m' : Nat}
    (h : IsMinHop adj src k m) (h' : IsMinHop adj src k m') : m = m' :=
  Nat.le_antisymm (h.2 m' h'.1) (h'.2 m h.1)

theorem exists_isMinHop {adj : String → List String} {src k : String}
    (h : Reachable adj src k) : ∃ m, IsMinHop adj src k m := by
  classical
  have hd : DecidablePred (fun n => ReachN adj src n k) := fun _ => Classical.dec _
  exact ⟨Nat.find h, Nat.find_spec h, fun j hj => Nat.find_min' h hj⟩

theorem isMinHop_pred {adj : String → List String} {src k : String} {t : Nat}
    (h : IsMinHop adj src k (t + 1)) : ∃ p, IsMinHop adj src p t ∧ k ∈ adj p := by
  obtain ⟨hr, hmin⟩ := h
  cases hr with
  | step hp hq =>
    rename_i p
    refine ⟨p, ⟨hp, ?_⟩, hq⟩
    intro j hj
    by_contra hlt
    push_neg at hlt
    have : ReachN adj src (j + 1) k := ReachN.step hj hq
    have := hmin (j + 1) this
    omega

theorem isMinHop_gap {adj : String → List String} {src : String} {L : Nat}
    (hno : ∀ k, ¬ IsMinHop adj src k (L + 1)) :
    ∀ m k, IsMinHop adj src k m → m ≤ L := by
  intro m
  induction m using Nat.strong_induction_on with
  | _ m ih =>
    intro k hk
    by_contra hgt
    push_neg at hgt
    match m, hgt with
    | t + 1, hgt =>
      obtain ⟨p, hp, -⟩ := isMinHop_pred hk
      by_cases he : t = L
      · rw [he] at hk
        exact hno k hk
      · have ht : L + 1 ≤ t := by omega
        have := ih t (by omega) p hp
        omega

theorem reachN_trans {adj : String → List String} {src a : String} {m : Nat}
    (h1 : ReachN adj src m a) :
    ∀ {n b}, ReachN adj a n b → ReachN adj src (m + n) b := by
  intro n b h2
  induction h2 with
  | refl => exact h1
  | step hp hq ih => exact ReachN.step ih hq

/-! ## Adjacency lemmas -/

theorem mem_adjKeys {ir : Bool} {edges : List Edge} {p q : String} :
    q ∈ adjKeys ir edges p ↔
      ∃ e ∈ keptEdges ir edges,
        (pyLower e.1.1 = pyLower p ∧ q = pyLower e.2.1) ∨
        (pyLower e.2.1 = pyLower p ∧ q = pyLower e.1.1) := by
  unfold adjKeys
  simp only [List.mem_append, List.mem_map, List.mem_filter]
  constructor
  · rintro (⟨e, ⟨he, hcond⟩, hq⟩ | ⟨e, ⟨he, hcond⟩, hq⟩)
    · exact ⟨e, he, Or.inl ⟨(beq_iff_eq.mp hcond).symm, hq.symm⟩⟩
    · exact ⟨e, he, Or.inr ⟨(beq_iff_eq.mp hcond).symm, hq.symm⟩⟩
  · rintro ⟨e, he, ⟨hcond, hq⟩ | ⟨hcond, hq⟩⟩
    · exact Or.inl ⟨e, ⟨he, beq_iff_eq.mpr hcond.symm⟩, hq.symm⟩
    · exact Or.inr ⟨e, ⟨he, beq_iff_eq.mpr hcond.symm⟩, hq.symm⟩

theorem adjKeys_lower {ir : Bool} {edges : List Edge} {p q : String}
    (h : q ∈ adjKeys ir edges p) : pyLower q = q := by
  rcases mem_adjKeys.mp h with ⟨e, -, ⟨-, hq⟩ | ⟨-, hq⟩⟩ <;>
    rw [hq, pyLower_idem]

theorem adjKeys_pyLower (ir : Bool) (edges : List Edge) (p : String) :
    adjKeys ir edges (pyLower p) = adjKeys ir edges p := by
  unfold adjKeys
  rw [pyLower_idem]

theorem adjKeys_symm {ir : Bool} {edges : List Edge} {p q : String}
    (hp : pyLower p = p) (h : q ∈ adjKeys ir edges p) : p ∈ adjKeys ir edges q := by
  have hq : pyLower q = q := adjKeys_lower h
  rcases mem_adjKeys.mp h with ⟨e, he, ⟨hcond, hqe⟩ | ⟨hcond, hqe⟩⟩
  · refine mem_adjKeys.mpr ⟨e, he, Or.inr ?_⟩
    constructor
    · rw [hqe, pyLower_idem]
    · rw [hcond, hp]
  · refine mem_adjKeys.mpr ⟨e, he, Or.inl ?_⟩
    constructor
    · rw [hqe, pyLower_idem]
    · rw [hcond, hp]

theorem keptEdges_sub {ir : Bool} {edges : List Edge} {e : Edge}
    (h : e ∈ keptEdges ir edges) : e ∈ edges := by
  unfold keptEdges at h
  by_cases hir : ir = true
  · rwa [if_pos hir] at h
  · rw [if_neg hir] at h
    exact (List.mem_filter.mp h).1

theorem adjKeys_mem_nodeKeys {ir : Bool} {edges : List Edge} {nodes : List Node}
    (hwf : ∀ e ∈ edges, pyLower e.1.1 ∈ nodeKeys nodes ∧ pyLower e.2.1 ∈ nodeKeys nodes)
    {p q : String} (h : q ∈ adjKeys ir edges p) : q ∈ nodeKeys nodes := by
  rcases mem_adjKeys.mp h with ⟨e, he, ⟨-, hq⟩ | ⟨-, hq⟩⟩
  · exact hq ▸ (hwf e (keptEdges_sub he)).2
  · exact hq ▸ (hwf e (keptEdges_sub he)).1

theorem reachN_mem_nodeKeys {ir : Bool} {edges : List Edge} {nodes : List Node}
    (hwf : ∀ e ∈ edges, pyLower e.1.1 ∈ nodeKeys nodes ∧ pyLower e.2.1 ∈ nodeKeys nodes)
    {src k : String} {n : Nat} (hsrc : src ∈ nodeKeys nodes)
    (h : ReachN (adjKeys ir edges) src n k) : k ∈ nodeKeys nodes := by
  induction h with
  | refl => exact hsrc
  | step hp hq ih => exact adjKeys_mem_nodeKeys hwf hq

theorem reachN_lower {ir : Bool} {edges : List Edge} {src k : String} {n : Nat}
    (hsrc : pyLower src = src) (h : ReachN (adjKeys ir edges) src n k) :
    pyLower k = k := by
  induction h with
  | refl => exact hsrc
  | step hp hq ih => exact adjKeys_lower hq

theorem reachN_symm {ir : Bool} {edges : List Edge} {src k : String} {n : Nat}
    (hsrc : pyLower src = src) (h : ReachN (adjKeys ir edges) src n k) :
    ReachN (adjKeys ir edges) k n src := by
  induction h with
  | refl => exact ReachN.refl
  | step hp hq ih =>
    rename_i m p q
    have hplow : pyLower p = p := reachN_lower hsrc hp
    have hstep : ReachN (adjKeys ir edges) q 1 p :=
      ReachN.step ReachN.refl (adjKeys_symm hplow hq)
    have := reachN_trans hstep ih
    simpa [Nat.add_comm] using this

/-! ## The per-node step of the traversal -/

theorem option_bool_false {o : Option Bool} (h : o.isSome) (h2 : o ≠ some true) :
    o = some false := by
  match o, h with
  | some true, _ => exact absurd rfl h2
  | some false, _ => rfl

theorem filter_swap {α : Type} (f g : α → Bool) (l : List α) :
    (l.filter f).filter g = (l.filter g).filter f := by
  induction l with
  | nil => rfl
  | cons a t ih =>
    by_cases hf : f a <;> by_cases hg : g a <;> simp [List.filter_cons, hf, hg, ih]

theorem searchTargets_spec (touched : List (String × Bool)) (keyOf : Edge → String) :
    ∀ l : List Edge, (∀ nx ∈ l, (dictFind touched (keyOf nx)).isSome) →
      searchTargets touched keyOf l =
        .ok ((l.filter (fun nx => dictFind touched (keyOf nx) == some false)).map keyOf) := by
  intro l
  induction l with
  | nil => intro _; rfl
  | cons nx rest ih =>
    intro hl
    have hs := hl nx (List.mem_cons_self nx rest)
    obtain ⟨b, hb⟩ := Option.isSome_iff_exists.mp hs
    have htl := ih (fun x hx => hl x (List.mem_cons_of_mem nx hx))
    simp only [searchTargets, dictGetE, hb, htl, except_bind_ok, List.filter_cons]
    cases b
    · simp [hb, except_pure_eq]
    · simp [hb, except_pure_eq]

theorem isEnvKey_of_mem_adjKeys {ir : Bool} {edges : List Edge} {nodes : List Node}
    (hwf : ∀ e ∈ edges, pyLower e.1.1 ∈ nodeKeys nodes ∧ pyLower e.2.1 ∈ nodeKeys nodes)
    {p q : String} (h : q ∈ adjKeys ir edges p) : isEnvKey ir nodes q :=
  Or.inl (adjKeys_mem_nodeKeys hwf h)

theorem mem_gatherTargets {ir : Bool} {edges : List Edge}
    {touched1 : List (String × Bool)} {p q : String} :
    q ∈ gatherTargets ir edges touched1 p ↔
      q ∈ adjKeys ir edges p ∧ dictFind touched1 q = some false := by
  unfold gatherTargets adjKeys
  simp only [List.mem_append, List.mem_map, List.mem_filter]
  constructor
  · rintro (⟨nx, ⟨hnx, hcfilter⟩, hfq⟩ | ⟨nx, ⟨hnx, hcfilter⟩, hfq⟩)
    · exact ⟨Or.inl ⟨nx, hnx, hfq⟩, hfq ▸ eq_of_beq hcfilter⟩
    · exact ⟨Or.inr ⟨nx, hnx, hfq⟩, hfq ▸ eq_of_beq hcfilter⟩
  · rintro ⟨hadj, hfalse⟩
    rcases hadj with ⟨nx, hnx, hfq⟩ | ⟨nx, hnx, hfq⟩
    · exact Or.inl ⟨nx, ⟨hnx, beq_iff_eq.mpr (hfq ▸ hfalse)⟩, hfq⟩
    · exact Or.inr ⟨nx, ⟨hnx, beq_iff_eq.mpr (hfq ▸ hfalse)⟩, hfq⟩

theorem procNode_run (ir : Bool) (edges : List Edge) (st : BfsState) (L : Nat)
    (p : String) (d : Int)
    (hd : dictFind st.dist p = some d) (hne : edges ≠ [])
    (hsomeD : ∀ nx ∈ (keptEdges ir edges).filter (fun x => pyLower p == pyLower x.1.1),
      (dictFind (dictSet st.touched p true) (pyLower nx.2.1)).isSome)
    (hsomeA : ∀ nx ∈ (keptEdges ir edges).filter (fun x => pyLower p == pyLower x.2.1),
      (dictFind (dictSet st.touched p true) (pyLower nx.1.1)).isSome) :
    procNode ir edges st L p = .ok
      (⟨if (L : Int) < |d| then dictSet st.dist p (L : Int) else st.dist,
        dictSet st.touched p true⟩,
       gatherTargets ir edges (dictSet st.touched p true) p) := by
  have h1 : dictGetE st.dist p = .ok d := by unfold dictGetE; rw [hd]
  have hempty : edges.isEmpty = false := by
    cases edges with
    | nil => exact absurd rfl hne
    | cons e t => rfl
  have h2 : Package.get_direct_links_to_any_package p edges =
      .ok (edges.filter (fun x => pyLower p == pyLower x.2.1),
           edges.filter (fun x => pyLower p == pyLower x.1.1)) := by
    unfold Package.get_direct_links_to_any_package
    rw [hempty]
    rfl
  have hancF : (if ir then edges.filter (fun x => pyLower p == pyLower x.2.1)
        else (edges.filter (fun x => pyLower p == pyLower x.2.1)).filter
          (fun nx => !(pyInStr "root" (strOfEdge nx)))) =
      (keptEdges ir edges).filter (fun x => pyLower p == pyLower x.2.1) := by
    unfold keptEdges
    cases ir
    · simp only [Bool.false_eq_true, if_false]
      exact filter_swap _ _ edges
    · simp
  have hdecF : (if ir then edges.filter (fun x => pyLower p == pyLower x.1.1)
        else (edges.filter (fun x => pyLower p == pyLower x.1.1)).filter
          (fun nx => !(pyInStr "root" (strOfEdge nx)))) =
      (keptEdges ir edges).filter (fun x => pyLower p == pyLower x.1.1) := by
    unfold keptEdges
    cases ir
    · simp only [Bool.false_eq_true, if_false]
      exact filter_swap _ _ edges
    · simp
  have h3 := searchTargets_spec (dictSet st.touched p true) (fun nx => pyLower nx.2.1) _ hsomeD
  have h4 := searchTargets_spec (dictSet st.touched p true) (fun nx => pyLower nx.1.1) _ hsomeA
  simp only [procNode, h1, except_bind_ok, h2, except_bind_ok, hancF, hdecF,
    h3, except_bind_ok, h4, except_bind_ok, gatherTargets]

theorem procNode_spec (ir : Bool) (edges : List Edge) (nodes : List Node) (src : String)
    (hwf : ∀ e ∈ edges, pyLower e.1.1 ∈ nodeKeys nodes ∧ pyLower e.2.1 ∈ nodeKeys nodes)
    (hne : edges ≠ [])
    (L : Nat) (st : BfsState) (p : String)
    (hinv : MidInv ir nodes edges src L st)
    (hpk : isEnvKey ir nodes p)
    (mp : Nat) (hmp : IsMinHop (adjKeys ir edges) src p mp) (hmpL : mp = L ∨ mp + 1 = L) :
    ∃ st1 ts, procNode ir edges st L p = .ok (st1, ts) ∧
      st1.touched = dictSet st.touched p true ∧
      (∀ k, dictFind st1.dist k =
        if p = k then some (capDist mp) else dictFind st.dist k) ∧
      (∀ q, q ∈ ts ↔ (q ∈ adjKeys ir edges p ∧
        dictFind (dictSet st.touched p true) q = some false)) := by
  obtain ⟨hdistK, htouchK, hprops⟩ := hinv
  have hpd : (dictFind st.dist p).isSome := (hdistK p).mpr hpk
  obtain ⟨d, hd⟩ := Option.isSome_iff_exists.mp hpd
  have hpt : (dictFind st.touched p).isSome := (htouchK p).mpr hpk
  have htouched1 : ∀ q, isEnvKey ir nodes q →
      (dictFind (dictSet st.touched p true) q).isSome := by
    intro q hq
    rw [dictFind_dictSet]
    by_cases hpq : p = q
    · rw [if_pos hpq]; rfl
    · rw [if_neg hpq]; exact (htouchK q).mpr hq
  have hsomeD : ∀ nx ∈ (keptEdges ir edges).filter
      (fun x => pyLower p == pyLower x.1.1),
      (dictFind (dictSet st.touched p true) (pyLower nx.2.1)).isSome := by
    intro nx hnx
    refine htouched1 _ (isEnvKey_of_mem_adjKeys hwf (p := p) ?_)
    unfold adjKeys
    exact List.mem_append_left _ (List.mem_map_of_mem _ hnx)
  have hsomeA : ∀ nx ∈ (keptEdges ir edges).filter
      (fun x => pyLower p == pyLower x.2.1),
      (dictFind (dictSet st.touched p true) (pyLower nx.1.1)).isSome := by
    intro nx hnx
    refine htouched1 _ (isEnvKey_of_mem_adjKeys hwf (p := p) ?_)
    unfold adjKeys
    exact List.mem_append_right _ (List.mem_map_of_mem _ hnx)
  have hrun := procNode_run ir edges st L p d hd hne hsomeD hsomeA
  by_cases htp : dictFind st.touched p = some true
  · -- already touched: the stored distance is already capped, so no update
    have hdv : d = capDist mp := by
      have hcap := (hprops p hpk).2.2.1 mp hmp htp
      rw [hd] at hcap
      exact Option.some.inj hcap
    have hmple : mp ≤ L := by
      rcases hmpL with h | h <;> omega
    have hcond : ¬ ((L : Int) < |d|) := by
      rw [hdv]
      unfold capDist start_distance
      by_cases h9 : mp < 999
      · rw [if_pos h9]
        rw [abs_of_nonneg (by positivity)]
        omega
      · rw [if_neg h9]
        have h999 : |(-999 : Int)| = 999 := by decide
        rw [h999]
        omega
    rw [if_neg hcond] at hrun
    refine ⟨_, _, hrun, rfl, ?_, fun q => mem_gatherTargets⟩
    intro k
    by_cases hpq : p = k
    · rw [if_pos hpq]
      show dictFind st.dist k = _
      rw [← hpq, hd, hdv]
    · rw [if_neg hpq]
  · -- untouched: the sentinel is replaced by the level when the level allows
    have htf : dictFind st.touched p = some false := option_bool_false hpt htp
    have hdv : d = start_distance := by
      have hcap := (hprops p hpk).2.2.2 htf
      rw [hd] at hcap
      exact Option.some.inj hcap
    have hmpL2 : mp = L := by
      rcases hmpL with h | h
      · exact h
      · exfalso
        have hto : dictFind st.touched p = some true :=
          (hprops p hpk).2.1 ⟨mp, by omega, hmp⟩
        rw [htf] at hto
        cases hto
    have h999 : |(-999 : Int)| = 999 := by decide
    by_cases h9 : L < 999
    · have hcond : (L : Int) < |d| := by
        rw [hdv]
        unfold start_distance
        rw [h999]
        omega
      rw [if_pos hcond] at hrun
      refine ⟨_, _, hrun, rfl, ?_, fun q => mem_gatherTargets⟩
      intro k
      show dictFind (dictSet st.dist p (L : Int)) k = _
      rw [dictFind_dictSet]
      by_cases hpq : p = k
      · rw [if_pos hpq, if_pos hpq, hmpL2]
        unfold capDist
        rw [if_pos h9]
      · rw [if_neg hpq, if_neg hpq]
    · have hcond : ¬ ((L : Int) < |d|) := by
        rw [hdv]
        unfold start_distance
        rw [h999]
        omega
      rw [if_neg hcond] at hrun
      refine ⟨_, _, hrun, rfl, ?_, fun q => mem_gatherTargets⟩
      intro k
      by_cases hpq : p = k
      · rw [if_pos hpq]
        show dictFind st.dist k = _
        rw [← hpq, hd, hdv, hmpL2]
        unfold capDist
        rw [if_neg h9]
      · rw [if_neg hpq]

/-! ## The per-level loop of the traversal -/

theorem countP_replace_le (t : List (String × Bool)) (k : String) :
    (t.map (fun p => if p.1 = k then (k, true) else p)).countP (fun p => !p.2) ≤
      t.countP (fun p => !p.2) := by
  induction t with
  | nil => simp
  | cons p rest ih =>
    by_cases h1 : p.1 = k
    · simp only [List.map_cons, if_pos h1, List.countP_cons]
      have hz : (if ((!true) = true) then 1 else 0) = 0 := rfl
      rw [hz]
      omega
    · simp only [List.map_cons, if_neg h1, List.countP_cons]
      omega

theorem countP_replace_lt (t : List (String × Bool)) (k : String)
    (h : dictFind t k = some false) :
    (t.map (fun p => if p.1 = k then (k, true) else p)).countP (fun p => !p.2) <
      t.countP (fun p => !p.2) := by
  induction t with
  | nil => simp [dictFind] at h
  | cons p rest ih =>
    by_cases h1 : p.1 = k
    · have hval : p.2 = false := by
        simp only [dictFind, if_pos h1] at h
        exact Option.some.inj h
      simp only [List.map_cons, if_pos h1, List.countP_cons]
      have hz : (if ((!true) = true) then 1 else 0) = 0 := rfl
      rw [hz, hval]
      have ho : (if ((!false) = true) then 1 else 0) = 1 := rfl
      rw [ho]
      have hle := countP_replace_le rest k
      omega
    · have h' : dictFind rest k = some false := by
        simpa only [dictFind, if_neg h1] using h
      simp only [List.map_cons, if_neg h1, List.countP_cons]
      have := ih h'
      omega

theorem untouchedCount_dictSet_true_le (t : List (String × Bool)) (k : String) :
    untouchedCount (dictSet t k true) ≤ untouchedCount t := by
  unfold untouchedCount dictSet
  by_cases hs : (dictFind t k).isSome
  · rw [if_pos hs]
    exact countP_replace_le t k
  · rw [if_neg hs, List.countP_append]
    have hone : (([(k, true)] : List (String × Bool)).countP (fun p => !p.2)) = 0 := by
      simp [List.countP_cons]
    omega

theorem untouchedCount_dictSet_true_lt (t : List (String × Bool)) (k : String)
    (h : dictFind t k = some false) :
    untouchedCount (dictSet t k true) < untouchedCount t := by
  unfold untouchedCount dictSet
  have hs : (dictFind t k).isSome := by rw [h]; rfl
  rw [if_pos hs]
  exact countP_replace_lt t k h

theorem procLevel_spec (ir : Bool) (edges : List Edge) (nodes : List Node) (src : String)
    (hwf : ∀ e ∈ edges, pyLower e.1.1 ∈ nodeKeys nodes ∧ pyLower e.2.1 ∈ nodeKeys nodes)
    (hne : edges ≠ []) (L : Nat) :
    ∀ (ps : List String) (st : BfsState),
      MidInv ir nodes edges src L st →
      (∀ p ∈ ps, isEnvKey ir nodes p ∧
        ∃ m, IsMinHop (adjKeys ir edges) src p m ∧ (m = L ∨ m + 1 = L)) →
      ∃ st2 out, procLevel ir edges ps st L = .ok (st2, out) ∧
        MidInv ir nodes edges src L st2 ∧
        (∀ k, dictFind st2.touched k = some true ↔
          (dictFind st.touched k = some true ∨ k ∈ ps)) ∧
        (∀ q ∈ out, isEnvKey ir nodes q ∧
          ∃ m, IsMinHop (adjKeys ir edges) src q m ∧ (m = L ∨ m = L + 1)) ∧
        (∀ q p0, p0 ∈ ps → q ∈ adjKeys ir edges p0 →
          dictFind st.touched q = some false →
          IsMinHop (adjKeys ir edges) src q (L + 1) → q ∈ out) ∧
        untouchedCount st2.touched ≤ untouchedCount st.touched ∧
        (∀ x ∈ ps, dictFind st.touched x = some false →
          untouchedCount st2.touched < untouchedCount st.touched) := by
  intro ps
  induction ps with
  | nil =>
    intro st hinv _
    refine ⟨st, [], rfl, hinv, ?_, ?_, ?_, Nat.le_refl _, ?_⟩
    · intro k; simp
    · intro q hq; cases hq
    · intro q p0 hp0; cases hp0
    · intro x hx; cases hx
  | cons p ps' ih =>
    intro st hinv hps
    obtain ⟨hpk, mp, hmp, hmpL⟩ := hps p (List.mem_cons_self p ps')
    obtain ⟨st1, ts, hrun1, htc1, hdc1, hts1⟩ :=
      procNode_spec ir edges nodes src hwf hne L st p hinv hpk mp hmp hmpL
    have hmple : mp ≤ L := by rcases hmpL with h | h <;> omega
    obtain ⟨hdistK, htouchK, hprops⟩ := hinv
    -- the touched dict of st1 pointwise
    have htc1p : ∀ k, dictFind st1.touched k =
        if p = k then some true else dictFind st.touched k := by
      intro k
      rw [htc1, dictFind_dictSet]
    -- MidInv is preserved by the step
    have hinv1 : MidInv ir nodes edges src L st1 := by
      refine ⟨?_, ?_, ?_⟩
      · intro k
        rw [hdc1 k]
        by_cases hpq : p = k
        · rw [if_pos hpq]
          simp only [Option.isSome_some, true_iff]
          exact hpq ▸ hpk
        · rw [if_neg hpq]
          exact hdistK k
      · intro k
        rw [htc1p k]
        by_cases hpq : p = k
        · rw [if_pos hpq]
          simp only [Option.isSome_some, true_iff]
          exact hpq ▸ hpk
        · rw [if_neg hpq]
          exact htouchK k
      · intro k hk
        refine ⟨?_, ?_, ?_, ?_⟩
        · intro ht
          rw [htc1p k] at ht
          by_cases hpq : p = k
          · exact ⟨mp, hmple, hpq ▸ hmp⟩
          · rw [if_neg hpq] at ht
            exact (hprops k hk).1 ht
        · intro hex
          rw [htc1p k]
          by_cases hpq : p = k
          · rw [if_pos hpq]
          · rw [if_neg hpq]
            exact (hprops k hk).2.1 hex
        · intro m hm ht
          rw [hdc1 k]
          by_cases hpq : p = k
          · rw [if_pos hpq]
            have : m = mp := isMinHop_unique hm (hpq ▸ hmp)
            rw [this]
          · rw [if_neg hpq]
            rw [htc1p k, if_neg hpq] at ht
            exact (hprops k hk).2.2.1 m hm ht
        · intro ht
          rw [htc1p k] at ht
          by_cases hpq : p = k
          · rw [if_pos hpq] at ht
            cases ht
          · rw [if_neg hpq] at ht
            rw [hdc1 k, if_neg hpq]
            exact (hprops k hk).2.2.2 ht
    obtain ⟨st2, out', hrun2, hinv2, htouch2, hout2, hback2, hle2, hlt2⟩ :=
      ih st1 hinv1 (fun q hq => hps q (List.mem_cons_of_mem p hq))
    refine ⟨st2, ts ++ out', ?_, hinv2, ?_, ?_, ?_, ?_, ?_⟩
    · simp only [procLevel, hrun1, except_bind_ok, hrun2, except_bind_ok]
    · -- touched characterisation
      intro k
      rw [htouch2 k, htc1p k]
      by_cases hpq : p = k
      · rw [if_pos hpq]
        simp [hpq]
      · rw [if_neg hpq]
        constructor
        · rintro (h | h)
          · exact Or.inl h
          · exact Or.inr (List.mem_cons_of_mem p h)
        · rintro (h | h)
          · exact Or.inl h
          · rcases List.mem_cons.mp h with h | h
            · exact absurd h.symm hpq
            · exact Or.inr h
    · -- properties of the gathered keys
      intro q hq
      rcases List.mem_append.mp hq with hq | hq
      · obtain ⟨hadj, hfq⟩ := (hts1 q).mp hq
        have hqk : isEnvKey ir nodes q := isEnvKey_of_mem_adjKeys hwf hadj
        have hpq : p ≠ q := by
          intro h
          rw [← h] at hfq
          rw [dictFind_dictSet, if_pos rfl] at hfq
          cases hfq
        have hqf : dictFind st.touched q = some false := by
          rw [dictFind_dictSet, if_neg hpq] at hfq
          exact hfq
        have hreach : ReachN (adjKeys ir edges) src (mp + 1) q := ReachN.step hmp.1 hadj
        obtain ⟨m, hm⟩ := exists_isMinHop ⟨mp + 1, hreach⟩
        have hub : m ≤ mp + 1 := hm.2 _ hreach
        have hlb : ¬ (m < L) := by
          intro hlt
          have := (hprops q hqk).2.1 ⟨m, hlt, hm⟩
          rw [hqf] at this
          cases this
        exact ⟨hqk, m, hm, by omega⟩
      · exact hout2 q hq
    · -- every minimal node of the next level is gathered
      intro q p0 hp0 hadj hqf hq1
      rcases List.mem_cons.mp hp0 with hp0 | hp0
      · refine List.mem_append_left _ ((hts1 q).mpr ⟨hp0 ▸ hadj, ?_⟩)
        rw [dictFind_dictSet]
        have hpq : ¬ p = q := by
          intro h
          have : mp = L + 1 := isMinHop_unique hmp (h ▸ hq1)
          omega
        rw [if_neg hpq]
        exact hqf
      · refine List.mem_append_right _ (hback2 q p0 hp0 hadj ?_ hq1)
        rw [htc1p q]
        have hpq : ¬ p = q := by
          intro h
          have : mp = L + 1 := isMinHop_unique hmp (h ▸ hq1)
          omega
        rw [if_neg hpq]
        exact hqf
    · -- the untouched count never grows
      calc untouchedCount st2.touched ≤ untouchedCount st1.touched := hle2
        _ ≤ untouchedCount st.touched := by
            rw [htc1]
            exact untouchedCount_dictSet_true_le st.touched p
    · -- it strictly shrinks when the level contains an untouched key
      intro x hx hxf
      by_cases hpx : p = x
      · have hlt1 : untouchedCount st1.touched < untouchedCount st.touched := by
          rw [htc1]
          exact untouchedCount_dictSet_true_lt st.touched p (hpx ▸ hxf)
        omega
      · rcases List.mem_cons.mp hx with hx | hx
        · exact absurd hx.symm hpx
        · have hxf1 : dictFind st1.touched x = some false := by
            rw [htc1p x, if_neg hpx]
            exact hxf
          have hlt1 := hlt2 x hx hxf1
          have hle1 : untouchedCount st1.touched ≤ untouchedCount st.touched := by
            rw [htc1]
            exact untouchedCount_dictSet_true_le st.touched p
          omega

/-! ## Full correctness of the recursive traversal -/

theorem rec_fun_spec (ir : Bool) (edges : List Edge) (nodes : List Node) (src : String)
    (hwf : ∀ e ∈ edges, pyLower e.1.1 ∈ nodeKeys nodes ∧ pyLower e.2.1 ∈ nodeKeys nodes)
    (hne : edges ≠ []) :
    ∀ (fuel L : Nat) (S : List String) (st : BfsState),
      MidInv ir nodes edges src L st →
      (∀ k, dictFind st.touched k = some true ↔
        ∃ m, m < L ∧ IsMinHop (adjKeys ir edges) src k m) →
      S ≠ [] →
      (∀ p ∈ S, isEnvKey ir nodes p ∧
        ∃ m, IsMinHop (adjKeys ir edges) src p m ∧ (m = L ∨ m + 1 = L)) →
      (∀ q, IsMinHop (adjKeys ir edges) src q L → q ∈ S) →
      untouchedCount st.touched + 1 ≤ fuel →
      ∃ st2, rec_fun ir edges fuel S st L = .ok st2 ∧
        (∀ k, (dictFind st2.dist k).isSome ↔ isEnvKey ir nodes k) ∧
        (∀ k, isEnvKey ir nodes k →
          (∀ m, IsMinHop (adjKeys ir edges) src k m →
            dictFind st2.dist k = some (capDist m)) ∧
          (¬ Reachable (adjKeys ir edges) src k →
            dictFind st2.dist k = some start_distance)) := by
  intro fuel
  induction fuel with
  | zero =>
    intro L S st _ _ _ _ _ hfuel
    omega
  | succ fuel ih =>
    intro L S st hinv htEq hSne hSprops hSmin hfuel
    obtain ⟨st2, out, hrun, hinv2, htouch2, hout2, hback2, hle2, hlt2⟩ :=
      procLevel_spec ir edges nodes src hwf hne L S st hinv hSprops
    have htEq2 : ∀ k, dictFind st2.touched k = some true ↔
        ∃ m, m < L + 1 ∧ IsMinHop (adjKeys ir edges) src k m := by
      intro k
      rw [htouch2 k, htEq k]
      constructor
      · rintro (⟨m, hm, hmin⟩ | hk)
        · exact ⟨m, by omega, hmin⟩
        · obtain ⟨-, m, hmin, hm⟩ := hSprops k hk
          exact ⟨m, by omega, hmin⟩
      · rintro ⟨m, hm, hmin⟩
        by_cases hml : m < L
        · exact Or.inl ⟨m, hml, hmin⟩
        · have hmL : m = L := by omega
          exact Or.inr (hSmin k (hmL ▸ hmin))
    have huntouched : ∀ q, isEnvKey ir nodes q →
        IsMinHop (adjKeys ir edges) src q (L + 1) →
        dictFind st.touched q = some false := by
      intro q hqk hq
      have hns : (dictFind st.touched q).isSome := (hinv.2.1 q).mpr hqk
      refine option_bool_false hns ?_
      intro ht
      obtain ⟨m, hm, hmin⟩ := (htEq q).mp ht
      have := isMinHop_unique hmin hq
      omega
    by_cases hdnil : out.dedup = []
    · -- the next frontier is empty: the traversal is complete
      have hrunAll : rec_fun ir edges (fuel + 1) S st L = .ok st2 := by
        simp only [rec_fun, hrun, except_bind_ok, hdnil, List.isEmpty_nil, if_true]
      have houtnil : out = [] := (List.dedup_eq_nil out).mp hdnil
      have hno : ∀ q, ¬ IsMinHop (adjKeys ir edges) src q (L + 1) := by
        intro q hq
        obtain ⟨p', hp', hadj⟩ := isMinHop_pred hq
        have hqk : isEnvKey ir nodes q := isEnvKey_of_mem_adjKeys hwf hadj
        have hqf := huntouched q hqk hq
        have := hback2 q p' (hSmin p' hp') hadj hqf hq
        rw [houtnil] at this
        cases this
      have hcap := isMinHop_gap hno
      refine ⟨st2, hrunAll, hinv2.1, ?_⟩
      intro k hk
      constructor
      · intro m hm
        have hmle : m ≤ L := hcap m k hm
        have ht : dictFind st2.touched k = some true :=
          (htEq2 k).mpr ⟨m, by omega, hm⟩
        exact (hinv2.2.2 k hk).2.2.1 m hm ht
      · intro hunreach
        have hns : (dictFind st2.touched k).isSome := (hinv2.2.1 k).mpr hk
        have hnt : dictFind st2.touched k ≠ some true := by
          intro ht
          obtain ⟨m, -, hmin⟩ := (htEq2 k).mp ht
          exact hunreach ⟨m, hmin.1⟩
        exact (hinv2.2.2 k hk).2.2.2 (option_bool_false hns hnt)
    · -- recurse one level deeper
      have houtne : out ≠ [] := by
        intro h
        rw [h] at hdnil
        exact hdnil List.dedup_nil
      obtain ⟨q0, hq0⟩ := List.exists_mem_of_ne_nil out houtne
      have hxL : ∃ x, IsMinHop (adjKeys ir edges) src x L := by
        obtain ⟨hq0k, m, hmin, hm12⟩ := hout2 q0 hq0
        rcases hm12 with hm | hm
        · exact ⟨q0, hm ▸ hmin⟩
        · obtain ⟨p', hp', -⟩ := isMinHop_pred (hm ▸ hmin)
          exact ⟨p', hp'⟩
      obtain ⟨x, hx⟩ := hxL
      have hxS : x ∈ S := hSmin x hx
      have hxk : isEnvKey ir nodes x := (hSprops x hxS).1
      have hxf : dictFind st.touched x = some false := by
        have hns : (dictFind st.touched x).isSome := (hinv.2.1 x).mpr hxk
        refine option_bool_false hns ?_
        intro ht
        obtain ⟨m, hm, hmin⟩ := (htEq x).mp ht
        have := isMinHop_unique hmin hx
        omega
      have hcount : untouchedCount st2.touched < untouchedCount st.touched :=
        hlt2 x hxS hxf
      have hinv2' : MidInv ir nodes edges src (L + 1) st2 := by
        refine ⟨hinv2.1, hinv2.2.1, ?_⟩
        intro k hk
        refine ⟨?_, fun hex => (htEq2 k).mpr hex,
          (hinv2.2.2 k hk).2.2.1, (hinv2.2.2 k hk).2.2.2⟩
        intro ht
        obtain ⟨m, hm, hmin⟩ := (hinv2.2.2 k hk).1 ht
        exact ⟨m, by omega, hmin⟩
      have hS'props : ∀ p ∈ out.dedup, isEnvKey ir nodes p ∧
          ∃ m, IsMinHop (adjKeys ir edges) src p m ∧ (m = L + 1 ∨ m + 1 = L + 1) := by
        intro p hp
        obtain ⟨hpk, m, hmin, hm12⟩ := hout2 p (List.mem_dedup.mp hp)
        exact ⟨hpk, m, hmin, by omega⟩
      have hS'min : ∀ q, IsMinHop (adjKeys ir edges) src q (L + 1) → q ∈ out.dedup := by
        intro q hq
        obtain ⟨p', hp', hadj⟩ := isMinHop_pred hq
        have hqk : isEnvKey ir nodes q := isEnvKey_of_mem_adjKeys hwf hadj
        exact List.mem_dedup.mpr
          (hback2 q p' (hSmin p' hp') hadj (huntouched q hqk hq) hq)
      obtain ⟨st3, hrun3, hfin1, hfin2⟩ := ih (L + 1) out.dedup st2 hinv2' htEq2
        hdnil hS'props hS'min (by omega)
      refine ⟨st3, ?_, hfin1, hfin2⟩
      have hie : out.dedup.isEmpty = false := by
        cases h : out.dedup.isEmpty
        · rfl
        · exact absurd (List.isEmpty_iff.mp h) hdnil
      simp only [rec_fun, hrun, except_bind_ok, hie, Bool.false_eq_true, if_false, hrun3]

/-! ## The output stages of `calc_node_distances` -/

theorem listEntries_lookup (dist : List (String × Int)) (keep : Bool) (x : Node) (d : Int) :
    ∀ nodes' : List Node,
      (∀ y ∈ nodes', (dictFind dist (pyLower y.1)).isSome) →
      (∀ y ∈ nodes', y.1 = x.1 → dictFind dist (pyLower y.1) = some d) →
      ∃ es, listEntries dist keep nodes' = .ok es ∧
        ((keep = true ∨ start_distance < d) → x ∈ nodes' →
          es.find? (fun t => t.1 == x.1 && t.2.1 == x.2) = some (x.1, x.2, d)) ∧
        (¬ (keep = true ∨ start_distance < d) →
          es.find? (fun t => t.1 == x.1 && t.2.1 == x.2) = none) := by
  intro nodes'
  induction nodes' with
  | nil =>
    intro _ _
    exact ⟨[], rfl, fun _ hx => absurd hx (List.not_mem_nil x), fun _ => rfl⟩
  | cons y ys ih =>
    intro hsome hagree
    obtain ⟨dy, hdy⟩ := Option.isSome_iff_exists.mp (hsome y (List.mem_cons_self y ys))
    have hgy : dictGetE dist (pyLower y.1) = .ok dy := by unfold dictGetE; rw [hdy]
    obtain ⟨es', hes', h1', h2'⟩ := ih (fun z hz => hsome z (List.mem_cons_of_mem y hz))
      (fun z hz => hagree z (List.mem_cons_of_mem y hz))
    have hmatch : y.1 = x.1 → dy = d := by
      intro hname
      have := hagree y (List.mem_cons_self y ys) hname
      rw [hdy] at this
      exact Option.some.inj this
    have hfind_hit : (y.1 = x.1 ∧ y.2 = x.2) →
        ((y.1, y.2, dy) :: es').find? (fun t => t.1 == x.1 && t.2.1 == x.2) =
          some (y.1, y.2, dy) := by
      rintro ⟨hn, hv⟩
      refine @List.find?_cons_of_pos _ (fun t => t.1 == x.1 && t.2.1 == x.2)
        (y.1, y.2, dy) es' ?_
      simp [hn, hv]
    have hfind_skip : ¬ (y.1 = x.1 ∧ y.2 = x.2) →
        ((y.1, y.2, dy) :: es').find? (fun t => t.1 == x.1 && t.2.1 == x.2) =
          es'.find? (fun t => t.1 == x.1 && t.2.1 == x.2) := by
      intro hny
      refine @List.find?_cons_of_neg _ (fun t => t.1 == x.1 && t.2.1 == x.2)
        (y.1, y.2, dy) es' ?_
      by_cases hn : y.1 = x.1
      · have hv : ¬ y.2 = x.2 := fun hv => hny ⟨hn, hv⟩
        simp [hn, hv]
      · simp [hn]
    have hconsHit : ∀ hcond : (keep = true ∨ start_distance < d), x ∈ y :: ys →
        ((y.1, y.2, dy) :: es').find? (fun t => t.1 == x.1 && t.2.1 == x.2) =
          some (x.1, x.2, d) := by
      intro hcond hx
      by_cases hpair : y.1 = x.1 ∧ y.2 = x.2
      · rw [hfind_hit hpair, hpair.1, hpair.2, hmatch hpair.1]
      · rw [hfind_skip hpair]
        rcases List.mem_cons.mp hx with hx | hx
        · exact absurd ⟨(congrArg Prod.fst hx).symm, (congrArg Prod.snd hx).symm⟩ hpair
        · exact h1' hcond hx
    cases keep with
    | true =>
      refine ⟨(y.1, y.2, dy) :: es', ?_, fun hcond hx => hconsHit hcond hx, ?_⟩
      · simp only [listEntries, hgy, except_bind_ok, hes', if_true]
      · intro hcond
        exact absurd (Or.inl rfl) hcond
    | false =>
      by_cases hdlt : start_distance < dy
      · refine ⟨(y.1, y.2, dy) :: es', ?_, fun hcond hx => hconsHit hcond hx, ?_⟩
        · simp only [listEntries, hgy, except_bind_ok, hes', Bool.false_eq_true,
            if_false, if_pos hdlt]
        · intro hcond
          have hnd : ¬ start_distance < d := fun h => hcond (Or.inr h)
          have hny : ¬ (y.1 = x.1 ∧ y.2 = x.2) := by
            rintro ⟨hn, -⟩
            rw [hmatch hn] at hdlt
            exact hnd hdlt
          rw [hfind_skip hny]
          exact h2' hcond
      · refine ⟨es', ?_, ?_, fun hcond => h2' hcond⟩
        · simp only [listEntries, hgy, except_bind_ok, hes', Bool.false_eq_true,
            if_false, if_neg hdlt]
        · intro hcond hx
          have hsd : start_distance < d := by
            rcases hcond with h | h
            · cases h
            · exact h
          rcases List.mem_cons.mp hx with hx | hx
          · exfalso
            have hn : y.1 = x.1 := (congrArg Prod.fst hx).symm
            rw [hmatch hn] at hdlt
            exact hdlt hsd
          · exact h1' hcond hx

theorem dictPairs_lookup (dist : List (String × Int)) (keep : Bool) (x : Node) (d : Int) :
    ∀ nodes' : List Node,
      (∀ y ∈ nodes', (dictFind dist (pyLower y.1)).isSome) →
      (∀ y ∈ nodes', y.1 = x.1 → dictFind dist (pyLower y.1) = some d) →
      ∃ ps, dictPairs dist keep nodes' = .ok ps ∧
        (∀ pr ∈ ps, pr.1 = (x.1, x.2) → pr.2 = d) ∧
        ((keep = true ∨ start_distance < d) → x ∈ nodes' →
          (x.1, x.2) ∈ ps.map (fun pr => pr.1)) ∧
        (¬ (keep = true ∨ start_distance < d) →
          (x.1, x.2) ∉ ps.map (fun pr => pr.1)) := by
  intro nodes'
  induction nodes' with
  | nil =>
    intro _ _
    refine ⟨[], rfl, fun pr hpr => absurd hpr (List.not_mem_nil pr),
      fun _ hx => absurd hx (List.not_mem_nil x), fun _ => ?_⟩
    simp
  | cons y ys ih =>
    intro hsome hagree
    obtain ⟨dy, hdy⟩ := Option.isSome_iff_exists.mp (hsome y (List.mem_cons_self y ys))
    have hgy : dictGetE dist (pyLower y.1) = .ok dy := by unfold dictGetE; rw [hdy]
    obtain ⟨ps', hps', hval', hmem', hnm'⟩ := ih
      (fun z hz => hsome z (List.mem_cons_of_mem y hz))
      (fun z hz => hagree z (List.mem_cons_of_mem y hz))
    have hmatch : y.1 = x.1 → dy = d := by
      intro hname
      have := hagree y (List.mem_cons_self y ys) hname
      rw [hdy] at this
      exact Option.some.inj this
    have hvalC : ∀ pr ∈ ((y.1, y.2), dy) :: ps', pr.1 = (x.1, x.2) → pr.2 = d := by
      intro pr hpr hprx
      rcases List.mem_cons.mp hpr with hpr | hpr
      · rw [hpr] at hprx ⊢
        exact hmatch (congrArg Prod.fst hprx)
      · exact hval' pr hpr hprx
    have hmemC : ∀ hcond : (keep = true ∨ start_distance < d), x ∈ y :: ys →
        (x.1, x.2) ∈ (((y.1, y.2), dy) :: ps').map (fun pr => pr.1) := by
      intro hcond hx
      simp only [List.map_cons, List.mem_cons]
      rcases List.mem_cons.mp hx with hx | hx
      · exact Or.inl (by rw [hx])
      · exact Or.inr (hmem' hcond hx)
    cases keep with
    | true =>
      refine ⟨((y.1, y.2), dy) :: ps', ?_, hvalC, fun hcond hx => hmemC hcond hx, ?_⟩
      · simp only [dictPairs, hgy, except_bind_ok, hps', if_true]
      · intro hcond
        exact absurd (Or.inl rfl) hcond
    | false =>
      by_cases hdlt : start_distance < dy
      · refine ⟨((y.1, y.2), dy) :: ps', ?_, hvalC, fun hcond hx => hmemC hcond hx, ?_⟩
        · simp only [dictPairs, hgy, except_bind_ok, hps', Bool.false_eq_true,
            if_false, if_pos hdlt]
        · intro hcond
          have hnd : ¬ start_distance < d := fun hh => hcond (Or.inr hh)
          simp only [List.map_cons, List.mem_cons]
          rintro (h | h)
          · have hn : y.1 = x.1 := congrArg Prod.fst h.symm
            rw [hmatch hn] at hdlt
            exact hnd hdlt
          · exact hnm' hcond h
      · refine ⟨ps', ?_, hval', ?_, hnm'⟩
        · simp only [dictPairs, hgy, except_bind_ok, hps', Bool.false_eq_true,
            if_false, if_neg hdlt]
        · intro hcond hx
          have hsd : start_distance < d := by
            rcases hcond with h | h
            · cases h
            · exact h
          rcases List.mem_cons.mp hx with hx | hx
          · exfalso
            have hn : y.1 = x.1 := (congrArg Prod.fst hx).symm
            rw [hmatch hn] at hdlt
            exact hdlt hsd
          · exact hmem' hcond hx

theorem find?_append_first {α : Type} (p : α → Bool) (l1 l2 : List α) :
    (l1 ++ l2).find? p =
      match l1.find? p with
      | some v => some v
      | none => l2.find? p := by
  induction l1 with
  | nil => simp
  | cons a t ih =>
    by_cases ha : p a
    · rw [List.cons_append, List.find?_cons_of_pos _ ha, List.find?_cons_of_pos _ ha]
    · rw [List.cons_append, List.find?_cons_of_neg _ ha, List.find?_cons_of_neg _ ha, ih]

theorem dictSet_length_le {κ α : Type} [DecidableEq κ] (d : List (κ × α)) (k : κ) (v : α) :
    (dictSet d k v).length ≤ d.length + 1 := by
  unfold dictSet
  by_cases hs : (dictFind d k).isSome
  · rw [if_pos hs, List.length_map]
    omega
  · rw [if_neg hs, List.length_append]
    simp

theorem pyDictOf_length_le {κ α : Type} [DecidableEq κ] (l : List (κ × α)) :
    (pyDictOf l).length ≤ l.length := by
  have main : ∀ (l' : List (κ × α)) (d0 : List (κ × α)),
      (l'.foldl (fun d p => dictSet d p.1 p.2) d0).length ≤ d0.length + l'.length := by
    intro l'
    induction l' with
    | nil => intro d0; simp
    | cons p rest ih =>
      intro d0
      simp only [List.foldl_cons, List.length_cons]
      have h1 := ih (dictSet d0 p.1 p.2)
      have h2 := dictSet_length_le d0 p.1 p.2
      omega
  have := main l []
  simpa [pyDictOf] using this

theorem listEntries_ok (dist : List (String × Int)) (keep : Bool) :
    ∀ nodes' : List Node, (∀ y ∈ nodes', (dictFind dist (pyLower y.1)).isSome) →
      ∃ es, listEntries dist keep nodes' = .ok es := by
  intro nodes'
  induction nodes' with
  | nil => intro _; exact ⟨[], rfl⟩
  | cons y ys ih =>
    intro hsome
    obtain ⟨dy, hdy⟩ := Option.isSome_iff_exists.mp (hsome y (List.mem_cons_self y ys))
    have hgy : dictGetE dist (pyLower y.1) = .ok dy := by unfold dictGetE; rw [hdy]
    obtain ⟨es', hes'⟩ := ih (fun z hz => hsome z (List.mem_cons_of_mem y hz))
    cases keep with
    | true =>
      exact ⟨(y.1, y.2, dy) :: es',
        by simp only [listEntries, hgy, except_bind_ok, hes', if_true]⟩
    | false =>
      by_cases hdlt : start_distance < dy
      · exact ⟨(y.1, y.2, dy) :: es', by simp only [listEntries, hgy, except_bind_ok, hes',
          Bool.false_eq_true, if_false, if_pos hdlt]⟩
      · exact ⟨es', by simp only [listEntries, hgy, except_bind_ok, hes',
          Bool.false_eq_true, if_false, if_neg hdlt]⟩

theorem dictPairs_ok (dist : List (String × Int)) (keep : Bool) :
    ∀ nodes' : List Node, (∀ y ∈ nodes', (dictFind dist (pyLower y.1)).isSome) →
      ∃ ps, dictPairs dist keep nodes' = .ok ps := by
  intro nodes'
  induction nodes' with
  | nil => intro _; exact ⟨[], rfl⟩
  | cons y ys ih =>
    intro hsome
    obtain ⟨dy, hdy⟩ := Option.isSome_iff_exists.mp (hsome y (List.mem_cons_self y ys))
    have hgy : dictGetE dist (pyLower y.1) = .ok dy := by unfold dictGetE; rw [hdy]
    obtain ⟨ps', hps'⟩ := ih (fun z hz => hsome z (List.mem_cons_of_mem y hz))
    cases keep with
    | true =>
      exact ⟨((y.1, y.2), dy) :: ps',
        by simp only [dictPairs, hgy, except_bind_ok, hps', if_true]⟩
    | false =>
      by_cases hdlt : start_distance < dy
      · exact ⟨((y.1, y.2), dy) :: ps', by simp only [dictPairs, hgy, except_bind_ok, hps',
          Bool.false_eq_true, if_false, if_pos hdlt]⟩
      · exact ⟨ps', by simp only [dictPairs, hgy, except_bind_ok, hps',
          Bool.false_eq_true, if_false, if_neg hdlt]⟩

/-- Full characterisation of `calc_node_distances` on a well-formed
non-empty graph whose origin is present: the call succeeds, reachable
nodes carry their minimum hop count when it is below 999, and nodes that
are unreached (or reached at level 999 or beyond) carry the sentinel when
kept and are absent otherwise (stated for `include_root = false` in the
absent case, where no root entry is appended). -/
theorem calc_node_distances_spec (package_in : String) (nodes : List Node) (edges : List Edge)
    (ir keep : Bool) (shape : String)
    (hwf : ∀ e ∈ edges, pyLower e.1.1 ∈ nodeKeys nodes ∧ pyLower e.2.1 ∈ nodeKeys nodes)
    (hne : edges ≠ [])
    (horig : pyLower package_in ∈ nodeKeys nodes) :
    ∃ r, calc_node_distances package_in nodes edges ir keep shape = .ok r ∧
      ∀ x ∈ nodes,
        (∀ m, IsMinHop (adjKeys ir edges) (pyLower package_in) (pyLower x.1) m →
          (m < 999 → distOf r x = some (m : Int)) ∧
          (999 ≤ m →
            (keep = true → distOf r x = some start_distance) ∧
            (keep = false → ir = false → distOf r x = none))) ∧
        (¬ Reachable (adjKeys ir edges) (pyLower package_in) (pyLower x.1) →
          (keep = true → distOf r x = some start_distance) ∧
          (keep = false → ir = false → distOf r x = none)) := by
  classical
  set src := pyLower package_in with hsrc
  set dist0 := pyDictOf (nodes.map (fun x => (pyLower x.1, start_distance))) with hdist0def
  set distI := if ir then dictSet dist0 "root" start_distance else dist0 with hdistIdef
  set touched0 := pyDictOf (nodes.map (fun x => (pyLower x.1, false))) with htouched0def
  set touchedI := if ir then dictSet touched0 "root" false else touched0 with htouchedIdef
  have hkeysD : (nodes.map (fun x => (pyLower x.1, start_distance))).map
      (fun p => p.1) = nodeKeys nodes := by
    simp [nodeKeys]
  have hkeysT : (nodes.map (fun x => (pyLower x.1, false))).map
      (fun p => p.1) = nodeKeys nodes := by
    simp [nodeKeys]
  have hbaseD : ∀ k, dictFind dist0 k =
      if k ∈ nodeKeys nodes then some start_distance else none := by
    intro k
    rw [hdist0def, dictFind_pyDictOf_uniform _ k start_distance ?_, hkeysD]
    intro p hp _
    obtain ⟨x, -, hx⟩ := List.mem_map.mp hp
    rw [← hx]
  have hbaseT : ∀ k, dictFind touched0 k =
      if k ∈ nodeKeys nodes then some false else none := by
    intro k
    rw [htouched0def, dictFind_pyDictOf_uniform _ k false ?_, hkeysT]
    intro p hp _
    obtain ⟨x, -, hx⟩ := List.mem_map.mp hp
    rw [← hx]
  have hD : ∀ k, dictFind distI k =
      if isEnvKey ir nodes k then some start_distance else none := by
    intro k
    rw [hdistIdef]
    cases ir with
    | false =>
      simp only [Bool.false_eq_true, if_false]
      rw [hbaseD k]
      unfold isEnvKey
      by_cases hk : k ∈ nodeKeys nodes
      · rw [if_pos hk, if_pos (Or.inl hk)]
      · have hno : ¬(k ∈ nodeKeys nodes ∨ false = true ∧ k = "root") := by
          rintro (h | ⟨h, -⟩)
          · exact hk h
          · cases h
        rw [if_neg hk, if_neg hno]
    | true =>
      simp only [if_true]
      rw [dictFind_dictSet, hbaseD k]
      unfold isEnvKey
      by_cases hr : "root" = k
      · rw [if_pos hr, if_pos (Or.inr ⟨rfl, hr.symm⟩)]
      · rw [if_neg hr]
        by_cases hk : k ∈ nodeKeys nodes
        · rw [if_pos hk, if_pos (Or.inl hk)]
        · have hno : ¬(k ∈ nodeKeys nodes ∨ true = true ∧ k = "root") := by
            rintro (h | ⟨-, h⟩)
            · exact hk h
            · exact hr h.symm
          rw [if_neg hk, if_neg hno]
  have hT : ∀ k, dictFind touchedI k =
      if isEnvKey ir nodes k then some false else none := by
    intro k
    rw [htouchedIdef]
    cases ir with
    | false =>
      simp only [Bool.false_eq_true, if_false]
      rw [hbaseT k]
      unfold isEnvKey
      by_cases hk : k ∈ nodeKeys nodes
      · rw [if_pos hk, if_pos (Or.inl hk)]
      · have hno : ¬(k ∈ nodeKeys nodes ∨ false = true ∧ k = "root") := by
          rintro (h | ⟨h, -⟩)
          · exact hk h
          · cases h
        rw [if_neg hk, if_neg hno]
    | true =>
      simp only [if_true]
      rw [dictFind_dictSet, hbaseT k]
      unfold isEnvKey
      by_cases hr : "root" = k
      · rw [if_pos hr, if_pos (Or.inr ⟨rfl, hr.symm⟩)]
      · rw [if_neg hr]
        by_cases hk : k ∈ nodeKeys nodes
        · rw [if_pos hk, if_pos (Or.inl hk)]
        · have hno : ¬(k ∈ nodeKeys nodes ∨ true = true ∧ k = "root") := by
            rintro (h | ⟨-, h⟩)
            · exact hk h
            · exact hr h.symm
          rw [if_neg hk, if_neg hno]
  have hsrcK : isEnvKey ir nodes src := Or.inl horig
  have hfound : (dictFind distI src).isNone = false := by
    rw [hD src, if_pos hsrcK]
    rfl
  -- the initial state satisfies the invariants at level 0
  have hinv0 : MidInv ir nodes edges src 0 ⟨distI, touchedI⟩ := by
    refine ⟨?_, ?_, ?_⟩
    · intro k
      rw [hD k]
      by_cases hk : isEnvKey ir nodes k
      · rw [if_pos hk]
        simp [hk]
      · rw [if_neg hk]
        simp [hk]
    · intro k
      rw [hT k]
      by_cases hk : isEnvKey ir nodes k
      · rw [if_pos hk]
        simp [hk]
      · rw [if_neg hk]
        simp [hk]
    · intro k hk
      refine ⟨?_, ?_, ?_, ?_⟩
      · intro ht
        rw [hT k, if_pos hk] at ht
        cases ht
      · rintro ⟨m, hm, -⟩
        omega
      · intro m _ ht
        rw [hT k, if_pos hk] at ht
        cases ht
      · intro _
        rw [hD k, if_pos hk]
  have htEq0 : ∀ k, dictFind touchedI k = some true ↔
      ∃ m, m < 0 ∧ IsMinHop (adjKeys ir edges) src k m := by
    intro k
    constructor
    · intro ht
      rw [hT k] at ht
      by_cases hk : isEnvKey ir nodes k
      · rw [if_pos hk] at ht
        cases ht
      · rw [if_neg hk] at ht
        cases ht
    · rintro ⟨m, hm, -⟩
      omega
  have hsrc0 : IsMinHop (adjKeys ir edges) src src 0 :=
    ⟨ReachN.refl, fun j _ => Nat.zero_le j⟩
  have hS0 : ∀ p ∈ [src], isEnvKey ir nodes p ∧
      ∃ m, IsMinHop (adjKeys ir edges) src p m ∧ (m = 0 ∨ m + 1 = 0) := by
    intro p hp
    rw [List.mem_singleton.mp hp]
    exact ⟨hsrcK, 0, hsrc0, Or.inl rfl⟩
  have hSmin0 : ∀ q, IsMinHop (adjKeys ir edges) src q 0 → q ∈ [src] := by
    intro q hq
    cases hq.1
    exact List.mem_singleton.mpr rfl
  -- fuel is sufficient
  have hfuel : untouchedCount touchedI + 1 ≤ nodes.length + 2 := by
    have h1 : untouchedCount touchedI ≤ touchedI.length := List.countP_le_length _
    have h2 : touchedI.length ≤ nodes.length + 1 := by
      rw [htouchedIdef]
      have hb : touched0.length ≤ nodes.length := by
        rw [htouched0def]
        have := pyDictOf_length_le (nodes.map (fun x => (pyLower x.1, false)))
        simpa using this
      cases ir with
      | false => simpa using Nat.le_trans hb (by omega)
      | true =>
        simp only [if_true]
        have := dictSet_length_le touched0 "root" false
        omega
    unfold untouchedCount at h1 ⊢
    omega
  obtain ⟨st, hrec, hfin1, hfin2⟩ := rec_fun_spec ir edges nodes src hwf hne
    (nodes.length + 2) 0 [src] ⟨distI, touchedI⟩ hinv0 htEq0
    (by simp) hS0 hSmin0 hfuel
  -- helpers for the output stage
  have hsomeN : ∀ y ∈ nodes, (dictFind st.dist (pyLower y.1)).isSome := by
    intro y hy
    exact (hfin1 (pyLower y.1)).mpr (Or.inl (List.mem_map_of_mem _ hy))
  -- the generic lookup transfer, proved per shape and root flag
  have main : ∃ r, calc_node_distances package_in nodes edges ir keep shape = .ok r ∧
      ∀ (x : Node) (d : Int), x ∈ nodes →
        (∀ y ∈ nodes, y.1 = x.1 → dictFind st.dist (pyLower y.1) = some d) →
        ((keep = true ∨ start_distance < d) → distOf r x = some d) ∧
        (keep = false → ¬ start_distance < d → ir = false → distOf r x = none) := by
    have hcalc : calc_node_distances package_in nodes edges ir keep shape =
        (do
          let st2 ← rec_fun ir edges (nodes.length + 2) [src] ⟨distI, touchedI⟩ 0
          if shape == "list" then do
            let entries ← listEntries st2.dist keep nodes
            if ir then do
              let droot ← dictGetE st2.dist "root"
              .ok (.ofList (entries ++ [("root", "0.0.0", droot)]))
            else .ok (.ofList entries)
          else do
            let pairs ← dictPairs st2.dist keep nodes
            if ir then do
              let droot ← dictGetE st2.dist "root"
              .ok (.ofDict (dictSet (pyDictOf pairs) ("root", "0.0.0") droot))
            else .ok (.ofDict (pyDictOf pairs))) := by
      simp only [calc_node_distances]
      rw [← hdist0def, ← htouched0def, ← hdistIdef, ← htouchedIdef, ← hsrc,
        show pyLower src = src from pyLower_idem package_in, hfound]
      rfl
    rw [hcalc, hrec, except_bind_ok]
    by_cases hshape : (shape == "list") = true
    · rw [hshape]
      simp only [reduceIte]
      obtain ⟨es0, hes0⟩ := listEntries_ok st.dist keep nodes hsomeN
      rw [hes0, except_bind_ok]
      by_cases hir : ir = true
      · have hrootK : isEnvKey ir nodes "root" := Or.inr ⟨hir, rfl⟩
        obtain ⟨dr, hdr⟩ := Option.isSome_iff_exists.mp ((hfin1 "root").mpr hrootK)
        have hgr : dictGetE st.dist "root" = .ok dr := by unfold dictGetE; rw [hdr]
        rw [hir]
        simp only [reduceIte]
        rw [hgr, except_bind_ok]
        refine ⟨_, rfl, ?_⟩
        intro x d hx hagree
        obtain ⟨es1, hes1, h1, h2⟩ := listEntries_lookup st.dist keep x d nodes hsomeN hagree
        rw [hes0] at hes1
        have hesx : es0 = es1 := Except.ok.inj hes1
        subst hesx
        constructor
        · intro hcond
          show ((es0 ++ [("root", "0.0.0", dr)]).find?
            (fun t => t.1 == x.1 && t.2.1 == x.2)).map (fun t => t.2.2) = some d
          rw [find?_append_first, h1 hcond hx]
          rfl
        · intro _ _ hirf
          cases hirf
      · have hirf : ir = false := by
          cases ir
          · rfl
          · exact absurd rfl hir
        rw [hirf]
        simp only [reduceIte]
        refine ⟨_, rfl, ?_⟩
        intro x d hx hagree
        obtain ⟨es1, hes1, h1, h2⟩ := listEntries_lookup st.dist keep x d nodes hsomeN hagree
        rw [hes0] at hes1
        have hesx : es0 = es1 := Except.ok.inj hes1
        subst hesx
        constructor
        · intro hcond
          show (es0.find? (fun t => t.1 == x.1 && t.2.1 == x.2)).map (fun t => t.2.2) = some d
          rw [h1 hcond hx]
          rfl
        · intro hkf hnd _
          have hnc : ¬(keep = true ∨ start_distance < d) := by
            rintro (h | h)
            · rw [hkf] at h
              cases h
            · exact hnd h
          show (es0.find? (fun t => t.1 == x.1 && t.2.1 == x.2)).map (fun t => t.2.2) = none
          rw [h2 hnc]
          rfl
    · rw [Bool.not_eq_true] at hshape
      simp only [hshape, Bool.false_eq_true, if_false]
      obtain ⟨ps0, hps0⟩ := dictPairs_ok st.dist keep nodes hsomeN
      rw [hps0, except_bind_ok]
      by_cases hir : ir = true
      · have hrootK : isEnvKey ir nodes "root" := Or.inr ⟨hir, rfl⟩
        obtain ⟨dr, hdr⟩ := Option.isSome_iff_exists.mp ((hfin1 "root").mpr hrootK)
        have hgr : dictGetE st.dist "root" = .ok dr := by unfold dictGetE; rw [hdr]
        rw [hir]
        simp only [reduceIte]
        rw [hgr, except_bind_ok]
        refine ⟨_, rfl, ?_⟩
        intro x d hx hagree
        obtain ⟨ps1, hps1, hval, hmem, hnm⟩ := dictPairs_lookup st.dist keep x d nodes
          hsomeN hagree
        rw [hps0] at hps1
        have hpsx : ps0 = ps1 := Except.ok.inj hps1
        subst hpsx
        have hfindP := dictFind_pyDictOf_uniform ps0 (x.1, x.2) d hval
        constructor
        · intro hcond
          show dictFind (dictSet (pyDictOf ps0) ("root", "0.0.0") dr) (x.1, x.2) = some d
          rw [dictFind_dictSet]
          by_cases hrp : (("root", "0.0.0") : Node) = (x.1, x.2)
          · rw [if_pos hrp]
            have hxr : x.1 = "root" := (congrArg Prod.fst hrp).symm
            have hagx := hagree x hx rfl
            rw [hxr] at hagx
            rw [show pyLower "root" = "root" from by decide] at hagx
            rw [hdr] at hagx
            rw [Option.some.inj hagx]
          · rw [if_neg hrp, hfindP, if_pos (hmem hcond hx)]
        · intro _ _ hirf
          cases hirf
      · have hirf : ir = false := by
          cases ir
          · rfl
          · exact absurd rfl hir
        rw [hirf]
        simp only [reduceIte]
        refine ⟨_, rfl, ?_⟩
        intro x d hx hagree
        obtain ⟨ps1, hps1, hval, hmem, hnm⟩ := dictPairs_lookup st.dist keep x d nodes
          hsomeN hagree
        rw [hps0] at hps1
        have hpsx : ps0 = ps1 := Except.ok.inj hps1
        subst hpsx
        have hfindP := dictFind_pyDictOf_uniform ps0 (x.1, x.2) d hval
        constructor
        · intro hcond
          show dictFind (pyDictOf ps0) (x.1, x.2) = some d
          rw [hfindP, if_pos (hmem hcond hx)]
        · intro hkf hnd _
          have hnc : ¬(keep = true ∨ start_distance < d) := by
            rintro (h | h)
            · rw [hkf] at h
              cases h
            · exact hnd h
          show dictFind (pyDictOf ps0) (x.1, x.2) = none
          rw [hfindP, if_neg (hnm hnc)]
  obtain ⟨r, hr, hlook⟩ := main
  refine ⟨r, hr, ?_⟩
  intro x hx
  have hxK : isEnvKey ir nodes (pyLower x.1) := Or.inl (List.mem_map_of_mem _ hx)
  constructor
  · intro m hm
    have hagree : ∀ y ∈ nodes, y.1 = x.1 →
        dictFind st.dist (pyLower y.1) = some (capDist m) := by
      intro y _ hname
      rw [show pyLower y.1 = pyLower x.1 from by rw [hname]]
      exact (hfin2 (pyLower x.1) hxK).1 m hm
    have hl := hlook x (capDist m) hx hagree
    constructor
    · intro hm9
      have hcd : capDist m = (m : Int) := by unfold capDist; rw [if_pos hm9]
      rw [← hcd]
      refine hl.1 (Or.inr ?_)
      rw [hcd]
      unfold start_distance
      omega
    · intro hm9
      have hcd : capDist m = start_distance := by unfold capDist; rw [if_neg (by omega)]
      constructor
      · intro hkeep
        have := hl.1 (Or.inl hkeep)
        rw [hcd] at this
        exact this
      · intro hkf hirf
        refine hl.2 hkf ?_ hirf
        rw [hcd]
        exact lt_irrefl _
  · intro hunreach
    have hagree : ∀ y ∈ nodes, y.1 = x.1 →
        dictFind st.dist (pyLower y.1) = some start_distance := by
      intro y _ hname
      rw [show pyLower y.1 = pyLower x.1 from by rw [hname]]
      exact (hfin2 (pyLower x.1) hxK).2 hunreach
    have hl := hlook x start_distance hx hagree
    constructor
    · intro hkeep
      exact hl.1 (Or.inl hkeep)
    · intro hkf hirf
      exact hl.2 hkf (lt_irrefl _) hirf

/-! ## Counterexamples for the distance-engine claims C1, C5, C8 -/

/-- Claim C1, counterexample: with a non-empty node collection and an
empty edge collection, `calc_node_distances` raises `InvalidEdges` (via
`get_direct_links_to_any_package`) instead of returning the origin at
distance 0. -/
theorem claim_C1_counterexample :
    calc_node_distances "a" [("a", "1.0")] [] false false "dict" =
      .error .invalidEdges := by decide

/-- Claim C5, counterexample: with `include_root` false, the edge from
`a` to the package `rootbeer` is dropped because the substring test
`'root' in str(edge)` matches the name `rootbeer`, so `rootbeer` is not
reached — refuting "edges touching a package whose name merely contains
the substring 'root' are kept". -/
theorem claim_C5_counterexample :
    calc_node_distances "a" [("a", "1"), ("rootbeer", "1")]
        [(("a", "1"), ("rootbeer", "1"))] false false "dict" =
      .ok (.ofDict [(("a", "1"), 0)])
    ∧ distOf (.ofDict [(("a", "1"), 0)]) ("rootbeer", "1") = none :=
  ⟨by decide, by decide⟩

/-- Claim C8, counterexample: with `include_root` true and the synthetic
root pair present among the nodes, the unconditionally appended
`('root','0.0.0')` entry breaks symmetry: from origin `a` the root pair
is reported (with the sentinel), while from origin `root` the unreached
`a` is absent from the result. -/
theorem claim_C8_counterexample :
    (calc_node_distances "a" [("root", "0.0.0"), ("a", "1.0"), ("b", "9.9")]
        [(("b", "9.9"), ("root", "0.0.0"))] true false "dict").map
        (fun r => distOf r ("root", "0.0.0")) = .ok (some (-999))
    ∧ (calc_node_distances "root" [("root", "0.0.0"), ("a", "1.0"), ("b", "9.9")]
        [(("b", "9.9"), ("root", "0.0.0"))] true false "dict").map
        (fun r => distOf r ("a", "1.0")) = .ok none :=
  ⟨by decide, by decide⟩


/-! ## C1: amended breadth-first correctness -/

/-- Claim C1, amended: over a well-formed non-empty edge collection whose
endpoints all lie in the node collection, and an origin key present in the
nodes, `calc_node_distances` succeeds; the origin gets distance 0, every
node whose minimum hop count `m` (ancestor and descendant edges alike, one
hop each) is below the 999 level cap gets the non-negative distance `m`,
and with `keep_untouched_nodes` every unreached node carries the sentinel
-999. -/
theorem claim_C1_theorem (package_in : String) (nodes : List Node) (edges : List Edge)
    (ir keep : Bool) (shape : String)
    (hwf : ∀ e ∈ edges, pyLower e.1.1 ∈ nodeKeys nodes ∧ pyLower e.2.1 ∈ nodeKeys nodes)
    (hne : edges ≠ [])
    (horig : pyLower package_in ∈ nodeKeys nodes) :
    ∃ r, calc_node_distances package_in nodes edges ir keep shape = .ok r ∧
      ∀ x ∈ nodes,
        (pyLower x.1 = pyLower package_in → distOf r x = some 0) ∧
        (∀ m : Nat, IsMinHop (adjKeys ir edges) (pyLower package_in) (pyLower x.1) m →
          m < 999 → 0 ≤ (m : Int) ∧ distOf r x = some (m : Int)) ∧
        (keep = true →
          ¬ Reachable (adjKeys ir edges) (pyLower package_in) (pyLower x.1) →
          distOf r x = some (-999)) := by
  obtain ⟨r, hr, hprops⟩ :=
    calc_node_distances_spec package_in nodes edges ir keep shape hwf hne horig
  refine ⟨r, hr, ?_⟩
  intro x hx
  obtain ⟨hmin, hunr⟩ := hprops x hx
  refine ⟨?_, ?_, ?_⟩
  · intro hname
    have h0 : IsMinHop (adjKeys ir edges) (pyLower package_in) (pyLower x.1) 0 := by
      rw [hname]
      exact ⟨ReachN.refl, fun j _ => Nat.zero_le j⟩
    have := (hmin 0 h0).1 (by omega)
    simpa using this
  · intro m hm hlt
    exact ⟨Int.natCast_nonneg m, (hmin m hm).1 hlt⟩
  · intro hkeep hunreach
    have := (hunr hunreach).1 hkeep
    simpa [start_distance] using this

/-- Witness for C1 at a two-node, one-edge graph. -/
theorem claim_C1_witness :
    (∀ e ∈ ([((("A", "1.0"), ("B", "2.0")) : Edge)] : List Edge),
        pyLower e.1.1 ∈ nodeKeys [("A", "1.0"), ("B", "2.0")] ∧
        pyLower e.2.1 ∈ nodeKeys [("A", "1.0"), ("B", "2.0")])
    ∧ ([((("A", "1.0"), ("B", "2.0")) : Edge)] : List Edge) ≠ []
    ∧ pyLower "A" ∈ nodeKeys [("A", "1.0"), ("B", "2.0")]
    ∧ ∃ r, calc_node_distances "A" [("A", "1.0"), ("B", "2.0")]
        [((("A", "1.0"), ("B", "2.0")))] false true "dict" = .ok r ∧
      ∀ x ∈ ([("A", "1.0"), ("B", "2.0")] : List Node),
        (pyLower x.1 = pyLower "A" → distOf r x = some 0) ∧
        (∀ m : Nat,
          IsMinHop (adjKeys false [((("A", "1.0"), ("B", "2.0")))]) (pyLower "A") (pyLower x.1) m →
          m < 999 → 0 ≤ (m : Int) ∧ distOf r x = some (m : Int)) ∧
        (true = true →
          ¬ Reachable (adjKeys false [((("A", "1.0"), ("B", "2.0")))]) (pyLower "A") (pyLower x.1) →
          distOf r x = some (-999)) :=
  ⟨by decide, by decide, by decide,
    claim_C1_theorem "A" [("A", "1.0"), ("B", "2.0")] [((("A", "1.0"), ("B", "2.0")))]
      false true "dict" (by decide) (by decide) (by decide)⟩

/-! ## C5: the per-level edge filter is the substring filter -/

theorem filter_idem {α : Type} (f : α → Bool) (l : List α) :
    (l.filter f).filter f = l.filter f := by
  induction l with
  | nil => rfl
  | cons a t ih => by_cases hf : f a <;> simp [List.filter_cons, hf, ih]

theorem procNode_filter_congr (edges : List Edge) (st : BfsState) (L : Nat) (p : String)
    (hne : edges ≠ [])
    (hkept : edges.filter (fun nx => !(pyInStr "root" (strOfEdge nx))) ≠ []) :
    procNode false (edges.filter (fun nx => !(pyInStr "root" (strOfEdge nx)))) st L p =
      procNode false edges st L p := by
  have he1 : edges.isEmpty = false := by
    cases edges with
    | nil => exact absurd rfl hne
    | cons a l => rfl
  have he2 : (edges.filter (fun nx => !(pyInStr "root" (strOfEdge nx)))).isEmpty = false := by
    cases h : edges.filter (fun nx => !(pyInStr "root" (strOfEdge nx))) with
    | nil => exact absurd h hkept
    | cons a l => rfl
  have hswap : ∀ P : Edge → Bool,
      ((edges.filter (fun nx => !(pyInStr "root" (strOfEdge nx)))).filter P).filter
          (fun nx => !(pyInStr "root" (strOfEdge nx))) =
        (edges.filter P).filter (fun nx => !(pyInStr "root" (strOfEdge nx))) := by
    intro P
    rw [filter_swap, filter_idem]
    exact filter_swap _ _ _
  simp only [procNode, Package.get_direct_links_to_any_package, he1, he2,
    Bool.false_eq_true, if_false, except_bind_ok, hswap]

theorem procLevel_filter_congr (edges : List Edge)
    (hne : edges ≠ [])
    (hkept : edges.filter (fun nx => !(pyInStr "root" (strOfEdge nx))) ≠ []) :
    ∀ (ps : List String) (st : BfsState) (L : Nat),
      procLevel false (edges.filter (fun nx => !(pyInStr "root" (strOfEdge nx)))) ps st L =
        procLevel false edges ps st L := by
  intro ps
  induction ps with
  | nil => intro st L; rfl
  | cons p ps ih =>
    intro st L
    show (do
        let (st1, ts) ← procNode false (edges.filter
          (fun nx => !(pyInStr "root" (strOfEdge nx)))) st L p
        let (st2, ts2) ← procLevel false (edges.filter
          (fun nx => !(pyInStr "root" (strOfEdge nx)))) ps st1 L
        .ok (st2, ts ++ ts2)) =
      (do
        let (st1, ts) ← procNode false edges st L p
        let (st2, ts2) ← procLevel false edges ps st1 L
        .ok (st2, ts ++ ts2))
    rw [procNode_filter_congr edges st L p hne hkept]
    cases hpn : procNode false edges st L p with
    | error e => rfl
    | ok v =>
      obtain ⟨st1, ts⟩ := v
      simp only [except_bind_ok, ih st1 L]

theorem rec_fun_filter_congr (edges : List Edge)
    (hne : edges ≠ [])
    (hkept : edges.filter (fun nx => !(pyInStr "root" (strOfEdge nx))) ≠ []) :
    ∀ (fuel : Nat) (S : List String) (st : BfsState) (L : Nat),
      rec_fun false (edges.filter (fun nx => !(pyInStr "root" (strOfEdge nx)))) fuel S st L =
        rec_fun false edges fuel S st L := by
  intro fuel
  induction fuel with
  | zero => intro S st L; rfl
  | succ fuel ih =>
    intro S st L
    show (do
        let (st1, to_search) ← procLevel false (edges.filter
          (fun nx => !(pyInStr "root" (strOfEdge nx)))) S st L
        let ts := to_search.dedup
        if ts.isEmpty then .ok st1
        else rec_fun false (edges.filter
          (fun nx => !(pyInStr "root" (strOfEdge nx)))) fuel ts st1 (L + 1)) =
      (do
        let (st1, to_search) ← procLevel false edges S st L
        let ts := to_search.dedup
        if ts.isEmpty then .ok st1
        else rec_fun false edges fuel ts st1 (L + 1))
    rw [procLevel_filter_congr edges hne hkept S st L]
    cases hpl : procLevel false edges S st L with
    | error e => rfl
    | ok v =>
      obtain ⟨st1, ts⟩ := v
      simp only [except_bind_ok]
      by_cases hemp : ts.dedup.isEmpty = true
      · rw [if_pos hemp, if_pos hemp]
      · rw [if_neg hemp, if_neg hemp, ih]

/-- Claim C5, amended: with `include_root` false the edges dropped before
use at each level are exactly those whose Python string representation
contains the substring `'root'` (which covers every edge touching the
`root` node, but also edges touching any package whose name contains
`'root'`): as long as the filtered edge collection is non-empty, the whole
computation coincides with the one run on the globally pre-filtered edge
collection. -/
theorem claim_C5_theorem (package_in : String) (nodes : List Node) (edges : List Edge)
    (keep : Bool) (shape : String)
    (hkept : edges.filter (fun nx => !(pyInStr "root" (strOfEdge nx))) ≠ []) :
    calc_node_distances package_in nodes edges false keep shape =
      calc_node_distances package_in nodes
        (edges.filter (fun nx => !(pyInStr "root" (strOfEdge nx)))) false keep shape := by
  have hne : edges ≠ [] := by
    intro h
    rw [h] at hkept
    exact hkept rfl
  simp only [calc_node_distances, rec_fun_filter_congr edges hne hkept]

/-- Witness for C5 at a one-edge graph without root. -/
theorem claim_C5_witness :
    ([((("a", "1"), ("b", "2")) : Edge)].filter
        (fun nx => !(pyInStr "root" (strOfEdge nx))) ≠ [])
    ∧ calc_node_distances "a" [("a", "1"), ("b", "2")] [((("a", "1"), ("b", "2")))]
        false false "dict" =
      calc_node_distances "a" [("a", "1"), ("b", "2")]
        ([((("a", "1"), ("b", "2")))].filter (fun nx => !(pyInStr "root" (strOfEdge nx))))
        false false "dict" :=
  ⟨by decide, claim_C5_theorem "a" [("a", "1"), ("b", "2")] [((("a", "1"), ("b", "2")))]
    false "dict" (by decide)⟩

/-! ## C8: symmetry of the engine without the root machinery -/

/-- Claim C8, amended: for a well-formed non-empty edge collection and two
nodes `A`, `B` of the snapshot, running the engine with `include_root`
false from `A` and asking for `B` gives the same answer as running it from
`B` and asking for `A`, under the same `keep_untouched_nodes` flag and
output shape.  (With `include_root` true the unconditionally appended
`('root','0.0.0')` entry breaks the symmetry.) -/
theorem claim_C8_theorem (nodes : List Node) (edges : List Edge) (keep : Bool) (shape : String)
    (A B : Node)
    (hwf : ∀ e ∈ edges, pyLower e.1.1 ∈ nodeKeys nodes ∧ pyLower e.2.1 ∈ nodeKeys nodes)
    (hne : edges ≠ []) (hA : A ∈ nodes) (hB : B ∈ nodes) :
    ∃ rA rB,
      calc_node_distances A.1 nodes edges false keep shape = .ok rA ∧
      calc_node_distances B.1 nodes edges false keep shape = .ok rB ∧
      distOf rA B = distOf rB A := by
  have horigA : pyLower A.1 ∈ nodeKeys nodes := List.mem_map_of_mem _ hA
  have horigB : pyLower B.1 ∈ nodeKeys nodes := List.mem_map_of_mem _ hB
  obtain ⟨rA, hrA, hpA⟩ :=
    calc_node_distances_spec A.1 nodes edges false keep shape hwf hne horigA
  obtain ⟨rB, hrB, hpB⟩ :=
    calc_node_distances_spec B.1 nodes edges false keep shape hwf hne horigB
  refine ⟨rA, rB, hrA, hrB, ?_⟩
  obtain ⟨hminA, hunrA⟩ := hpA B hB
  obtain ⟨hminB, hunrB⟩ := hpB A hA
  by_cases hreach : Reachable (adjKeys false edges) (pyLower A.1) (pyLower B.1)
  · obtain ⟨m, hm⟩ := exists_isMinHop hreach
    have hm' : IsMinHop (adjKeys false edges) (pyLower B.1) (pyLower A.1) m := by
      obtain ⟨hrm, hminm⟩ := hm
      refine ⟨reachN_symm (pyLower_idem A.1) hrm, ?_⟩
      intro j hj
      exact hminm j (reachN_symm (pyLower_idem B.1) hj)
    by_cases hlt : m < 999
    · rw [(hminA m hm).1 hlt, (hminB m hm').1 hlt]
    · push_neg at hlt
      have h9A := (hminA m hm).2 hlt
      have h9B := (hminB m hm').2 hlt
      cases keep with
      | true => rw [h9A.1 rfl, h9B.1 rfl]
      | false => rw [h9A.2 rfl rfl, h9B.2 rfl rfl]
  · have hreach' : ¬ Reachable (adjKeys false edges) (pyLower B.1) (pyLower A.1) := by
      intro h
      obtain ⟨n, hn⟩ := h
      exact hreach ⟨n, reachN_symm (pyLower_idem B.1) hn⟩
    cases keep with
    | true => rw [(hunrA hreach).1 rfl, (hunrB hreach').1 rfl]
    | false => rw [(hunrA hreach).2 rfl rfl, (hunrB hreach').2 rfl rfl]

/-- Witness for C8 at a two-node, one-edge graph. -/
theorem claim_C8_witness :
    (∀ e ∈ ([((("A", "1.0"), ("B", "2.0")) : Edge)] : List Edge),
        pyLower e.1.1 ∈ nodeKeys [("A", "1.0"), ("B", "2.0")] ∧
        pyLower e.2.1 ∈ nodeKeys [("A", "1.0"), ("B", "2.0")])
    ∧ ([((("A", "1.0"), ("B", "2.0")) : Edge)] : List Edge) ≠ []
    ∧ (("A", "1.0") : Node) ∈ ([("A", "1.0"), ("B", "2.0")] : List Node)
    ∧ (("B", "2.0") : Node) ∈ ([("A", "1.0"), ("B", "2.0")] : List Node)
    ∧ ∃ rA rB,
      calc_node_distances "A" [("A", "1.0"), ("B", "2.0")]
        [((("A", "1.0"), ("B", "2.0")))] false false "dict" = .ok rA ∧
      calc_node_distances "B" [("A", "1.0"), ("B", "2.0")]
        [((("A", "1.0"), ("B", "2.0")))] false false "dict" = .ok rB ∧
      distOf rA ("B", "2.0") = distOf rB ("A", "1.0") :=
  ⟨by decide, by decide, by decide, by decide,
    claim_C8_theorem [("A", "1.0"), ("B", "2.0")] [((("A", "1.0"), ("B", "2.0")))]
      false "dict" ("A", "1.0") ("B", "2.0") (by decide) (by decide) (by decide) (by decide)⟩

end Magellan
